import Mathlib

/-!
Verification of the conflict materialization / marker parsing / conflict
update core (`src/lib/src/conflicts.rs`).

Byte strings are modelled as `List Nat` (one `Nat` per byte).  The external
collaborators that live outside this source file — the content store, the
line differ (`crate::diff`), the line merger (`crate::files::merge`) and the
hexadecimal id rendering — are modelled as parameters or, where noted, as
definitions modelled from the specification's words.
-/

set_option maxRecDepth 10000

abbrev Bytes := List Nat

/-- Bytes of a Lean string literal (each char's code point; all literals used
are ASCII, so this is exactly the UTF-8 bytes of the Rust byte literals). -/
def bytes (s : String) : Bytes := s.data.map Char.toNat

/-- Model of Rust's `slice::split_inclusive(|b| *b == b'\n')`: maximal runs
ending in a newline byte, with a final unterminated run kept as a last piece.
`acc` holds the current run, reversed. -/
def splitInclusiveAux (acc : Bytes) : Bytes → List Bytes
  | [] => if acc = [] then [] else [acc.reverse]
  | b :: rest =>
    if b = 10 then (acc.reverse ++ [10]) :: splitInclusiveAux [] rest
    else splitInclusiveAux (b :: acc) rest

def splitInclusive (xs : Bytes) : List Bytes := splitInclusiveAux [] xs

/- Marker line constants from the source. -/

def CONFLICT_START_LINE : Bytes := bytes "<<<<<<<\n"
def CONFLICT_END_LINE : Bytes := bytes ">>>>>>>\n"
def CONFLICT_MINUS_LINE : Bytes := bytes "-------\n"
def CONFLICT_PLUS_LINE : Bytes := bytes "+++++++\n"

/- Data model: `TreeValue`, `ConflictPart`, `Conflict` from `crate::backend`,
with content ids modelled as `Nat`. -/

inductive TreeValue where
  | Normal : Nat → Bool → TreeValue
  | Symlink : Nat → TreeValue
  | Tree : Nat → TreeValue
  | GitSubmodule : Nat → TreeValue
  | Conflict : Nat → TreeValue
deriving DecidableEq, Repr

structure ConflictPart where
  value : TreeValue
deriving DecidableEq, Repr

structure Conflict where
  removes : List ConflictPart
  adds : List ConflictPart
deriving DecidableEq, Repr

/-- The predicate used by `file_parts`: a plain non-executable regular file. -/
def isFilePart (part : ConflictPart) : Bool :=
  match part.value with
  | TreeValue.Normal _ false => true
  | _ => false

def file_parts (parts : List ConflictPart) : List ConflictPart :=
  parts.filter isFilePart

/-- Model of the content store: reading a file blob by id, looking up a
conflict object by id, and content-addressed writes returning ids. -/
structure Store where
  readFile : Nat → Bytes
  readConflict : Nat → Option Conflict
  writeFile : Bytes → Nat
  writeConflict : Conflict → Nat

/-- Model of `get_file_contents`.  The Rust code panics on a non-file part;
that case is unreachable on every call path (the caller filters first), and
the model returns `[]` there. -/
def get_file_contents (store : Store) (part : ConflictPart) : Bytes :=
  match part.value with
  | TreeValue.Normal id false => store.readFile id
  | _ => []

/- Hexadecimal id rendering.  The `hex()` method of id types lives outside
this source file. -/

/-- Modelled from the spec: one hexadecimal digit character of the "stable
hexadecimal string" rendering of a content identity. -/
def hexDigitByte (n : Nat) : Nat := if n < 10 then 48 + n else 87 + n

def hexBytesAux : Nat → Nat → Bytes
  | 0, _ => []
  | fuel + 1, n => if n = 0 then [] else hexBytesAux fuel (n / 16) ++ [hexDigitByte (n % 16)]

/-- Modelled from the spec: a content identity "rendered as a stable
hexadecimal string" (`id.hex()` in the source, defined outside this file). -/
def hexBytes (n : Nat) : Bytes := if n = 0 then bytes "0" else hexBytesAux n n

def describe_conflict_part (part : ConflictPart) : Bytes :=
  match part.value with
  | TreeValue.Normal id false => bytes "file with id " ++ hexBytes id
  | TreeValue.Normal id true => bytes "executable file with id " ++ hexBytes id
  | TreeValue.Symlink id => bytes "symlink with id " ++ hexBytes id
  | TreeValue.Tree id => bytes "tree with id " ++ hexBytes id
  | TreeValue.GitSubmodule id => bytes "Git submodule with id " ++ hexBytes id
  | TreeValue.Conflict id => bytes "Conflict with id " ++ hexBytes id

def describe_conflict (conflict : Conflict) : Bytes :=
  bytes "Conflict:\n"
    ++ (conflict.removes.map
        (fun part => bytes "  Removing " ++ describe_conflict_part part ++ bytes "\n")).flatten
    ++ (conflict.adds.map
        (fun part => bytes "  Adding " ++ describe_conflict_part part ++ bytes "\n")).flatten

/- Diff hunks from `crate::diff` (external collaborator).  The source's
`DiffHunk::Different` carries one slice per diff input; `write_diff_hunks`
always diffs exactly two inputs, so the model is binary. -/

inductive DiffHunk where
  | Matching : Bytes → DiffHunk
  | Different : Bytes → Bytes → DiffHunk
deriving DecidableEq, Repr

inductive MergeHunk where
  | Resolved : Bytes → MergeHunk
  | Conflict : List Bytes → List Bytes → MergeHunk
deriving DecidableEq, Repr

inductive MergeResult where
  | Resolved : Bytes → MergeResult
  | Conflict : List MergeHunk → MergeResult
deriving DecidableEq, Repr

/-- Writer-style rendering of one prefixed region: for each inclusive line of
`content`, write the one-byte marker `p` and then the line. -/
def writeLinesWith (p : Nat) (content : Bytes) (out : Bytes) : Bytes :=
  (splitInclusive content).foldl (fun o line => o ++ [p] ++ line) out

/-- Model of `write_diff_hunks`, with the source's emptiness guards (they work
around a Rust `split_inclusive` bug on empty slices; with our `splitInclusive`
they are no-ops, kept for faithfulness). -/
def write_diff_hunks (diffHunks : List DiffHunk) (out : Bytes) : Bytes :=
  diffHunks.foldl
    (fun o h =>
      match h with
      | DiffHunk.Matching content =>
        if content = [] then o else writeLinesWith 32 content o
      | DiffHunk.Different l r =>
        let o1 := if l = [] then o else writeLinesWith 45 l o
        if r = [] then o1 else writeLinesWith 43 r o1)
    out

/-- Rendering of one merge hunk into the output buffer, mirroring the loop in
`materialize_conflict`'s `MergeResult::Conflict` arm.  The differ is a
parameter (external collaborator). -/
def materialize_hunk (diff : Bytes → Bytes → List DiffHunk) (out : Bytes) :
    MergeHunk → Bytes
  | MergeHunk.Resolved content => out ++ content
  | MergeHunk.Conflict removes adds =>
    let numDiffs := min removes.length adds.length
    let o1 := out ++ CONFLICT_START_LINE
    let o2 := (List.range numDiffs).foldl
      (fun o i =>
        write_diff_hunks (diff (removes.getD i []) (adds.getD i []))
          (o ++ CONFLICT_MINUS_LINE ++ CONFLICT_PLUS_LINE)) o1
    let o3 := (removes.drop numDiffs).foldl
      (fun o s => o ++ CONFLICT_MINUS_LINE ++ s) o2
    let o4 := (adds.drop numDiffs).foldl
      (fun o s => o ++ CONFLICT_PLUS_LINE ++ s) o3
    o4 ++ CONFLICT_END_LINE

/-- Model of `materialize_conflict`.  The line merger (`files::merge`) and the
differ are parameters: both are external collaborators defined outside this
source file. -/
def materialize_conflict (merge : List Bytes → List Bytes → MergeResult)
    (diff : Bytes → Bytes → List DiffHunk) (store : Store)
    (conflict : Conflict) : Bytes :=
  let file_adds := file_parts conflict.adds
  let file_removes := file_parts conflict.removes
  if file_adds.length ≠ conflict.adds.length ∨
      file_removes.length ≠ conflict.removes.length then
    describe_conflict conflict
  else
    let added_content := file_adds.map (get_file_contents store)
    let removed_content := file_removes.map (get_file_contents store)
    match merge removed_content added_content with
    | MergeResult.Resolved content => content
    | MergeResult.Conflict hunks => hunks.foldl (materialize_hunk diff) []

/- The conflict marker parser. -/

/-- Model of `line.strip_prefix(&[p])` for the one-byte patterns used. -/
def stripLead (p : Nat) (line : Bytes) : Option Bytes :=
  match line with
  | [] => none
  | b :: rest => if b = p then some rest else none

/-- Model of `bufs.last_mut().unwrap().extend_from_slice(t)`.  The Rust
`unwrap` would panic on an empty vector; every call site has pushed a buffer
first, so the `[]` case is unreachable (modelled as starting a buffer). -/
def appendLast : List Bytes → Bytes → List Bytes
  | [], t => [t]
  | [b], t => [b ++ t]
  | b :: b2 :: rest, t => b :: appendLast (b2 :: rest) t

structure HunkScanState where
  minusSeen : Bool
  plusSeen : Bool
  bodySeen : Bool
  removes : List Bytes
  adds : List Bytes
deriving DecidableEq, Repr

/-- The line loop of `parse_conflict_hunk`; the two `return`s of the Rust code
become the two `MergeHunk.Resolved []` results. -/
def parse_hunk_lines (st : HunkScanState) : List Bytes → MergeHunk
  | [] => MergeHunk.Conflict st.removes st.adds
  | line :: rest =>
    if line = CONFLICT_MINUS_LINE then
      let st1 := if st.bodySeen then { st with plusSeen := false, bodySeen := false } else st
      parse_hunk_lines { st1 with minusSeen := true, removes := st1.removes ++ [[]] } rest
    else if line = CONFLICT_PLUS_LINE then
      let st1 := if st.bodySeen then { st with minusSeen := false, bodySeen := false } else st
      parse_hunk_lines { st1 with plusSeen := true, adds := st1.adds ++ [[]] } rest
    else if st.minusSeen ∧ st.plusSeen then
      match stripLead 45 line with
      | some t =>
        parse_hunk_lines { st with bodySeen := true, removes := appendLast st.removes t } rest
      | none =>
        match stripLead 43 line with
        | some t =>
          parse_hunk_lines { st with bodySeen := true, adds := appendLast st.adds t } rest
        | none =>
          match stripLead 32 line with
          | some t =>
            parse_hunk_lines { st with bodySeen := true, removes := appendLast st.removes t, adds := appendLast st.adds t } rest
          | none => MergeHunk.Resolved []
    else if st.minusSeen then
      parse_hunk_lines { st with bodySeen := true, removes := appendLast st.removes line } rest
    else if st.plusSeen then
      parse_hunk_lines { st with bodySeen := true, adds := appendLast st.adds line } rest
    else
      MergeHunk.Resolved []

def parse_conflict_hunk (input : Bytes) : MergeHunk :=
  parse_hunk_lines ⟨false, false, false, [], []⟩ (splitInclusive input)

structure ParseScanState where
  hunks : List MergeHunk
  pos : Nat
  resolvedStart : Nat
  conflictStart : Option Nat
deriving DecidableEq, Repr

/-- Model of `input[start..stop]` (the Rust slice would panic out of bounds;
all uses are in bounds). -/
def sliceBytes (input : Bytes) (start stop : Nat) : Bytes :=
  (input.take stop).drop start

/-- One iteration of `parse_conflict`'s line loop, including the trailing
`pos += line.len()`. -/
def parse_step (input : Bytes) (num_removes num_adds : Nat)
    (st : ParseScanState) (line : Bytes) : ParseScanState :=
  if line = CONFLICT_START_LINE then
    { st with conflictStart := some st.pos, pos := st.pos + line.length }
  else
    match st.conflictStart with
    | some cs =>
      if line = CONFLICT_END_LINE then
        let body := sliceBytes input (cs + CONFLICT_START_LINE.length) st.pos
        match parse_conflict_hunk body with
        | MergeHunk.Conflict removes adds =>
          if removes.length = num_removes ∧ adds.length = num_adds then
            let resolvedSlice := sliceBytes input st.resolvedStart cs
            let hunks1 :=
              if resolvedSlice = [] then st.hunks
              else st.hunks ++ [MergeHunk.Resolved resolvedSlice]
            { hunks := hunks1 ++ [MergeHunk.Conflict removes adds],
              pos := st.pos + line.length,
              resolvedStart := st.pos + line.length,
              conflictStart := none }
          else
            { st with conflictStart := none, pos := st.pos + line.length }
        | MergeHunk.Resolved _ =>
          { st with conflictStart := none, pos := st.pos + line.length }
      else { st with pos := st.pos + line.length }
    | none => { st with pos := st.pos + line.length }

def parse_scan (input : Bytes) (num_removes num_adds : Nat) : ParseScanState :=
  (splitInclusive input).foldl (parse_step input num_removes num_adds) ⟨[], 0, 0, none⟩

/-- Model of `parse_conflict`. -/
def parse_conflict (input : Bytes) (num_removes num_adds : Nat) :
    Option (List MergeHunk) :=
  if input = [] then none
  else
    let st := parse_scan input num_removes num_adds
    if st.hunks = [] then none
    else if st.resolvedStart < input.length then
      some (st.hunks ++ [MergeHunk.Resolved (input.drop st.resolvedStart)])
    else some st.hunks

/- The conflict updater. -/

inductive StoreWrite where
  | file : Bytes → StoreWrite
  | conflict : Conflict → StoreWrite
deriving DecidableEq, Repr

/-- One enumerate-loop of the updater's reconstruction: buffer `i` gains the
hunk's `i`-th slice.  A hunk with more slices than buffers would panic in
Rust (out-of-bounds index); that case is unreachable because the parser
enforces the arity. -/
def addToBuffers (bufs : List Bytes) (hunkBufs : List Bytes) : List Bytes :=
  List.zipWith (fun b hb => b ++ hb) bufs hunkBufs ++ bufs.drop hunkBufs.length

def apply_hunk (bufs : List Bytes × List Bytes) (h : MergeHunk) :
    List Bytes × List Bytes :=
  match h with
  | MergeHunk.Resolved s => (bufs.1.map (· ++ s), bufs.2.map (· ++ s))
  | MergeHunk.Conflict rs as => (addToBuffers bufs.1 rs, addToBuffers bufs.2 as)

/-- The reconstruction loop of `update_conflict_from_content` (lines 337-359):
per-index remove/add buffers accumulated across the hunk sequence. -/
def reconstruct_contents (num_removes num_adds : Nat) (hunks : List MergeHunk) :
    List Bytes × List Bytes :=
  hunks.foldl apply_hunk (List.replicate num_removes [], List.replicate num_adds [])

/-- Replacing the content id inside one part; `none` models the Rust panic
"Found conflict markers in merge of non-files". -/
def setPartId (fid : Nat) (part : ConflictPart) : Option ConflictPart :=
  match part.value with
  | TreeValue.Normal _ executable => some ⟨TreeValue.Normal fid executable⟩
  | _ => none

/-- Writing each reconstructed buffer as a blob and updating the matching
part's id. -/
def write_back (store : Store) (parts : List ConflictPart) (contents : List Bytes) :
    Option (List ConflictPart) :=
  (parts.zip contents).mapM (fun pc => setPartId (store.writeFile pc.2) pc.1)

/-- Model of `update_conflict_from_content`.  The result also carries the list
of store writes performed on the successful parse path; `none` models the
propagated backend error (unknown conflict id) or the Rust panic on non-file
parts. -/
def update_conflict_from_content (merge : List Bytes → List Bytes → MergeResult)
    (diff : Bytes → Bytes → List DiffHunk) (store : Store) (conflict_id : Nat)
    (content : Bytes) : Option (Option Nat × List StoreWrite) :=
  match store.readConflict conflict_id with
  | none => none
  | some conflict =>
    let old_content := materialize_conflict merge diff store conflict
    if content = old_content then some (some conflict_id, [])
    else
      match parse_conflict content conflict.removes.length conflict.adds.length with
      | some hunks =>
        let bufs := reconstruct_contents conflict.removes.length conflict.adds.length hunks
        match write_back store conflict.removes bufs.1,
            write_back store conflict.adds bufs.2 with
        | some newRemoves, some newAdds =>
          let newConflict : Conflict := ⟨newRemoves, newAdds⟩
          some (some (store.writeConflict newConflict),
            bufs.1.map StoreWrite.file ++ bufs.2.map StoreWrite.file
              ++ [StoreWrite.conflict newConflict])
        | _, _ => none
      | none => some (none, [])

/- Declarative views of the rendered output, used to state and prove the
characterization and round-trip results. -/

/-- One prefixed region as bytes: every inclusive line of `content` preceded
by the one-byte marker `p`. -/
def lineBlock (p : Nat) (content : Bytes) : Bytes :=
  ((splitInclusive content).map (fun l => p :: l)).flatten

/-- Declarative rendering of a single diff hunk, following the spec: matching
lines space-prefixed; a differing region's left lines `-`-prefixed followed by
its right lines `+`-prefixed; empty regions emit nothing. -/
def renderRegion : DiffHunk → Bytes
  | DiffHunk.Matching c => lineBlock 32 c
  | DiffHunk.Different l r => lineBlock 45 l ++ lineBlock 43 r

def diffRender (dh : List DiffHunk) : Bytes := (dh.map renderRegion).flatten

/-- The rendered lines of a single diff hunk (same bytes as `renderRegion`,
line-structured). -/
def regionLines : DiffHunk → List Bytes
  | DiffHunk.Matching c => (splitInclusive c).map (fun t => 32 :: t)
  | DiffHunk.Different l r =>
    (splitInclusive l).map (fun t => 45 :: t) ++ (splitInclusive r).map (fun t => 43 :: t)

def diffLines (dh : List DiffHunk) : List Bytes := (dh.map regionLines).flatten

/-- Left-hand bytes covered by a diff result. -/
def leftJoin (dh : List DiffHunk) : Bytes :=
  (dh.map (fun h => match h with | DiffHunk.Matching c => c | DiffHunk.Different l _ => l)).flatten

/-- Right-hand bytes covered by a diff result. -/
def rightJoin (dh : List DiffHunk) : Bytes :=
  (dh.map (fun h => match h with | DiffHunk.Matching c => c | DiffHunk.Different _ r => r)).flatten

/-- The bytes a prefixed line contributes to the remove side. -/
def lineLeft : Bytes → Bytes
  | 45 :: t => t
  | 32 :: t => t
  | _ => []

/-- The bytes a prefixed line contributes to the add side. -/
def lineRight : Bytes → Bytes
  | 43 :: t => t
  | 32 :: t => t
  | _ => []

def leftOfLines (ls : List Bytes) : Bytes := (ls.map lineLeft).flatten

def rightOfLines (ls : List Bytes) : Bytes := (ls.map lineRight).flatten

/-- The lines of a rendered marked block body. -/
def blockBodyLines (diff : Bytes → Bytes → List DiffHunk) (rs as : List Bytes) :
    List Bytes :=
  ((rs.zip as).map
      (fun p => CONFLICT_MINUS_LINE :: CONFLICT_PLUS_LINE :: diffLines (diff p.1 p.2))).flatten
    ++ ((rs.drop (min rs.length as.length)).map
        (fun s => CONFLICT_MINUS_LINE :: splitInclusive s)).flatten
    ++ ((as.drop (min rs.length as.length)).map
        (fun s => CONFLICT_PLUS_LINE :: splitInclusive s)).flatten

/-- The lines of a rendered merge hunk. -/
def hunkLines (diff : Bytes → Bytes → List DiffHunk) : MergeHunk → List Bytes
  | MergeHunk.Resolved s => splitInclusive s
  | MergeHunk.Conflict rs as =>
    CONFLICT_START_LINE :: (blockBodyLines diff rs as ++ [CONFLICT_END_LINE])

/-- Bytes a hunk contributes to remove buffer `i` during reconstruction. -/
def removeContrib (i : Nat) : MergeHunk → Bytes
  | MergeHunk.Resolved s => s
  | MergeHunk.Conflict rs _ => rs.getD i []

/-- Bytes a hunk contributes to add buffer `i` during reconstruction. -/
def addContrib (i : Nat) : MergeHunk → Bytes
  | MergeHunk.Resolved s => s
  | MergeHunk.Conflict _ as => as.getD i []

/- Line-shape predicates. -/

/-- A proper line: nonempty, ends with a newline, no interior newline. -/
def ProperLine (l : Bytes) : Prop :=
  l ≠ [] ∧ l.getLast? = some 10 ∧ ∀ b ∈ l.dropLast, b ≠ 10

/-- Byte content that is empty or newline-terminated. -/
def EndsNL (xs : Bytes) : Prop := xs = [] ∨ xs.getLast? = some 10

def markerLines : List Bytes :=
  [CONFLICT_START_LINE, CONFLICT_END_LINE, CONFLICT_MINUS_LINE, CONFLICT_PLUS_LINE]

instance (l : Bytes) : Decidable (ProperLine l) :=
  inferInstanceAs (Decidable (l ≠ [] ∧ l.getLast? = some 10 ∧ ∀ b ∈ l.dropLast, b ≠ 10))

instance (xs : Bytes) : Decidable (EndsNL xs) :=
  inferInstanceAs (Decidable (xs = [] ∨ xs.getLast? = some 10))

/-- Safety of one diff hunk for the round-trip: regions newline-terminated and
no rendered line collides with a marker line. -/
def SafeDiffHunk : DiffHunk → Prop
  | DiffHunk.Matching c => EndsNL c
  | DiffHunk.Different l r =>
    EndsNL l ∧ EndsNL r ∧ (∀ t ∈ splitInclusive l, t ≠ bytes "------\n")
      ∧ (∀ t ∈ splitInclusive r, t ≠ bytes "++++++\n")

instance : (h : DiffHunk) → Decidable (SafeDiffHunk h)
  | DiffHunk.Matching c => inferInstanceAs (Decidable (EndsNL c))
  | DiffHunk.Different l r =>
    inferInstanceAs (Decidable (EndsNL l ∧ EndsNL r
      ∧ (∀ t ∈ splitInclusive l, t ≠ bytes "------\n")
      ∧ (∀ t ∈ splitInclusive r, t ≠ bytes "++++++\n")))

/-- The differ behaves per its interface contract on this input pair, and its
output is safe for the round-trip. -/
def SafeDiff (diff : Bytes → Bytes → List DiffHunk) (l r : Bytes) : Prop :=
  leftJoin (diff l r) = l ∧ rightJoin (diff l r) = r ∧ ∀ h ∈ diff l r, SafeDiffHunk h

/-- A raw (unpaired) slice safe for the round-trip: newline-terminated, and no
line of it is a marker line. -/
def SafeRawSlice (s : Bytes) : Prop :=
  EndsNL s ∧ ∀ t ∈ splitInclusive s, t ∉ markerLines

/-- The last paired diff renders at least one line (needed when unpaired
slices follow it inside the block). -/
def LastPairBusy (diff : Bytes → Bytes → List DiffHunk) (rs as : List Bytes) : Prop :=
  ∀ p ∈ ((rs.zip as).getLast?).toList, diffLines (diff p.1 p.2) ≠ []

instance (diff : Bytes → Bytes → List DiffHunk) (l r : Bytes) :
    Decidable (SafeDiff diff l r) :=
  inferInstanceAs (Decidable (leftJoin (diff l r) = l ∧ rightJoin (diff l r) = r
    ∧ ∀ h ∈ diff l r, SafeDiffHunk h))

instance (s : Bytes) : Decidable (SafeRawSlice s) :=
  inferInstanceAs (Decidable (EndsNL s ∧ ∀ t ∈ splitInclusive s, t ∉ markerLines))

instance (diff : Bytes → Bytes → List DiffHunk) (rs as : List Bytes) :
    Decidable (LastPairBusy diff rs as) :=
  inferInstanceAs (Decidable (∀ p ∈ ((rs.zip as).getLast?).toList, diffLines (diff p.1 p.2) ≠ []))

/-- Safety of one merge hunk for the round-trip. -/
def SafeHunk (diff : Bytes → Bytes → List DiffHunk) : MergeHunk → Prop
  | MergeHunk.Resolved s => EndsNL s ∧ ∀ t ∈ splitInclusive s, t ≠ CONFLICT_START_LINE
  | MergeHunk.Conflict rs as =>
    (∀ p ∈ rs.zip as, SafeDiff diff p.1 p.2)
      ∧ (∀ s ∈ rs.drop (min rs.length as.length), SafeRawSlice s)
      ∧ (∀ s ∈ as.drop (min rs.length as.length), SafeRawSlice s)
      ∧ (rs.length = as.length ∨ LastPairBusy diff rs as)

instance (diff : Bytes → Bytes → List DiffHunk) :
    (h : MergeHunk) → Decidable (SafeHunk diff h)
  | MergeHunk.Resolved s =>
    inferInstanceAs (Decidable (EndsNL s ∧ ∀ t ∈ splitInclusive s, t ≠ CONFLICT_START_LINE))
  | MergeHunk.Conflict rs as =>
    inferInstanceAs (Decidable ((∀ p ∈ rs.zip as, SafeDiff diff p.1 p.2)
      ∧ (∀ s ∈ rs.drop (min rs.length as.length), SafeRawSlice s)
      ∧ (∀ s ∈ as.drop (min rs.length as.length), SafeRawSlice s)
      ∧ (rs.length = as.length ∨ LastPairBusy diff rs as)))

/- Concrete collaborators and objects used in closed instantiations. -/

/-- Modelled from the spec: a conforming Line Merger that reports the whole
input as a single still-conflicting hunk (the merger itself lives outside
this source file; the interface admits this behaviour). -/
def oneHunkMerge (removes adds : List Bytes) : MergeResult :=
  MergeResult.Conflict [MergeHunk.Conflict removes adds]

/-- Modelled from the spec: a conforming Hunk Differ that reports the two
inputs as one differing region (line-granularity with full coverage; the
differ itself lives outside this source file). -/
def oneHunkDiff (l r : Bytes) : List DiffHunk := [DiffHunk.Different l r]

/-- A conflict between two plain files with ids 1 and 2. -/
def twoFileConflict : Conflict :=
  ⟨[⟨TreeValue.Normal 1 false⟩], [⟨TreeValue.Normal 2 false⟩]⟩

/-- Store whose file 1 holds a line that collides with the minus marker once
prefixed. -/
def markerCollisionStore : Store :=
  ⟨fun n => if n = 1 then bytes "------\n" else if n = 2 then bytes "x\n" else [],
    fun n => if n = 9 then some twoFileConflict else none, fun _ => 0, fun _ => 0⟩

/-- Store with harmless one-line file contents. -/
def plainStore : Store :=
  ⟨fun n => if n = 1 then bytes "b\n" else if n = 2 then bytes "x\n" else [],
    fun n => if n = 9 then some twoFileConflict else none, fun _ => 0, fun _ => 0⟩

/-- A tree/tree conflict (no part is a plain file). -/
def treeConflict : Conflict := ⟨[⟨TreeValue.Tree 3⟩], [⟨TreeValue.Tree 4⟩]⟩

/-- Store holding `treeConflict` under conflict id 7. -/
def treeStore : Store :=
  ⟨fun _ => [], fun n => if n = 7 then some treeConflict else none,
    fun _ => 0, fun _ => 0⟩

/-- Decidable form of the merger arity invariant for one hunk. -/
def hunkArityOK (nr na : Nat) : MergeHunk → Bool
  | MergeHunk.Resolved _ => true
  | MergeHunk.Conflict rs as => rs.length = nr && as.length = na

/- Basic lemmas about accumulating folds and `splitInclusive`. -/

theorem foldl_append_acc {α : Type} (f : α → Bytes) (xs : List α) (o : Bytes) :
    xs.foldl (fun o x => o ++ f x) o = o ++ (xs.map f).flatten := by
  induction xs generalizing o with
  | nil => simp
  | cons x xs ih => simp [ih, List.append_assoc]

theorem splitInclusiveAux_flatten (xs : Bytes) : ∀ acc : Bytes,
    (splitInclusiveAux acc xs).flatten = acc.reverse ++ xs := by
  induction xs with
  | nil =>
    intro acc
    by_cases h : acc = [] <;> simp [splitInclusiveAux, h]
  | cons b rest ih =>
    intro acc
    by_cases hb : b = 10
    · subst hb; simp [splitInclusiveAux, ih]
    · simp [splitInclusiveAux, hb, ih]

theorem splitInclusive_flatten (xs : Bytes) : (splitInclusive xs).flatten = xs := by
  simpa using splitInclusiveAux_flatten xs []

theorem properLine_iff (l : Bytes) :
    ProperLine l ↔ ∃ core, l = core ++ [10] ∧ 10 ∉ core := by
  constructor
  · rintro ⟨hne, hlast, hdrop⟩
    refine ⟨l.dropLast, ?_, fun h => hdrop 10 h rfl⟩
    exact (List.dropLast_append_getLast? 10 hlast).symm
  · rintro ⟨core, rfl, h10⟩
    refine ⟨by simp, by simp, ?_⟩
    intro b hb
    rw [List.dropLast_concat] at hb
    intro h; exact h10 (h ▸ hb)

theorem splitInclusiveAux_proper_line : ∀ (core : Bytes), 10 ∉ core →
    ∀ (acc rest : Bytes), splitInclusiveAux acc (core ++ 10 :: rest)
      = (acc.reverse ++ core ++ [10]) :: splitInclusiveAux [] rest
  | [], _, acc, rest => by simp [splitInclusiveAux]
  | b :: core, h10, acc, rest => by
    have hb : b ≠ 10 := fun h => h10 (by simp [h])
    have h10' : 10 ∉ core := fun h => h10 (List.mem_cons_of_mem _ h)
    have hrec := splitInclusiveAux_proper_line core h10' (b :: acc) rest
    show splitInclusiveAux acc (b :: (core ++ 10 :: rest)) = _
    simp only [splitInclusiveAux, hb, if_false]
    rw [hrec]
    simp

theorem splitInclusive_proper_cons (core rest : Bytes) (h10 : 10 ∉ core) :
    splitInclusive ((core ++ [10]) ++ rest) = (core ++ [10]) :: splitInclusive rest := by
  have := splitInclusiveAux_proper_line core h10 [] rest
  simpa [splitInclusive, List.append_assoc] using this

theorem splitInclusive_flatten_append (ls : List Bytes) (rest : Bytes)
    (h : ∀ l ∈ ls, ProperLine l) :
    splitInclusive (ls.flatten ++ rest) = ls ++ splitInclusive rest := by
  induction ls with
  | nil => simp
  | cons l ls ih =>
    obtain ⟨core, hl, h10⟩ := (properLine_iff l).mp (h l (by simp))
    subst hl
    rw [List.flatten_cons, List.append_assoc, splitInclusive_proper_cons core _ h10,
      ih (fun l hl => h l (by simp [hl]))]
    rfl

theorem splitInclusive_of_proper (ls : List Bytes) (h : ∀ l ∈ ls, ProperLine l) :
    splitInclusive ls.flatten = ls := by
  have := splitInclusive_flatten_append ls [] h
  simpa [splitInclusive, splitInclusiveAux] using this

theorem getLast?_tail_of_ne_nil {b : Nat} {rest : Bytes}
    (h : (b :: rest).getLast? = some 10) (hne : rest ≠ []) :
    rest.getLast? = some 10 := by
  cases rest with
  | nil => exact absurd rfl hne
  | cons c rest => simpa [List.getLast?_cons_cons] using h

theorem splitInclusiveAux_proper : ∀ (xs acc : Bytes), 10 ∉ acc →
    (xs.getLast? = some 10 ∨ (xs = [] ∧ acc = [])) →
    ∀ l ∈ splitInclusiveAux acc xs, ProperLine l
  | [], acc, _, h, l, hl => by
    rcases h with h | ⟨_, rfl⟩
    · simp at h
    · simp [splitInclusiveAux] at hl
  | b :: rest, acc, hacc, h, l, hl => by
    have hlast : (b :: rest).getLast? = some 10 := by
      rcases h with h | ⟨h, _⟩
      · exact h
      · cases h
    by_cases hb : b = 10
    · subst hb
      simp only [splitInclusiveAux, if_true, List.mem_cons, reduceIte] at hl
      rcases hl with hl | hl
      · exact (properLine_iff _).mpr ⟨acc.reverse, by simpa using hl, by simpa using hacc⟩
      · refine splitInclusiveAux_proper rest [] (by simp) ?_ l hl
        by_cases hr : rest = []
        · exact Or.inr ⟨hr, rfl⟩
        · exact Or.inl (getLast?_tail_of_ne_nil hlast hr)
    · have hne : rest ≠ [] := by
        rintro rfl
        simp at hlast
        exact hb hlast
      simp only [splitInclusiveAux, hb, if_false] at hl
      refine splitInclusiveAux_proper rest (b :: acc) ?_ ?_ l hl
      · intro hmem
        rcases List.mem_cons.mp hmem with h1 | h1
        · exact hb h1.symm
        · exact hacc h1
      · exact Or.inl (getLast?_tail_of_ne_nil hlast hne)

theorem proper_of_endsNL (xs : Bytes) (h : EndsNL xs) :
    ∀ l ∈ splitInclusive xs, ProperLine l := by
  rcases h with rfl | h
  · intro l hl; simp [splitInclusive, splitInclusiveAux] at hl
  · exact splitInclusiveAux_proper xs [] (by simp) (Or.inl h)

theorem ne_of_head_ne {a b : Bytes} (h : a.head? ≠ b.head?) : a ≠ b :=
  fun e => h (by rw [e])

theorem cons_ne_of_head {p : Nat} {t l : Bytes} {q : Nat}
    (hl : l.head? = some q) (h : p ≠ q) : p :: t ≠ l := by
  intro e
  rw [← e] at hl
  simp at hl
  exact h hl

theorem start_head : CONFLICT_START_LINE.head? = some 60 := by decide

theorem endline_head : CONFLICT_END_LINE.head? = some 62 := by decide

theorem minus_head : CONFLICT_MINUS_LINE.head? = some 45 := by decide

theorem plus_head : CONFLICT_PLUS_LINE.head? = some 43 := by decide

theorem minus_line_eq : CONFLICT_MINUS_LINE = 45 :: bytes "------\n" := by decide

theorem plus_line_eq : CONFLICT_PLUS_LINE = 43 :: bytes "++++++\n" := by decide

/- Characterization of the writers. -/

theorem writeLinesWith_eq (p : Nat) (c o : Bytes) :
    writeLinesWith p c o = o ++ lineBlock p c := by
  unfold writeLinesWith lineBlock
  rw [List.foldl_ext _ (fun o line => o ++ (p :: line)) o (by intro a b _; simp)]
  exact foldl_append_acc (fun l => p :: l) (splitInclusive c) o

theorem lineBlock_nil (p : Nat) : lineBlock p [] = [] := rfl

theorem diffRender_cons (h : DiffHunk) (dh : List DiffHunk) :
    diffRender (h :: dh) = renderRegion h ++ diffRender dh := by
  simp [diffRender]

theorem write_diff_hunks_eq (dh : List DiffHunk) (o : Bytes) :
    write_diff_hunks dh o = o ++ diffRender dh := by
  induction dh generalizing o with
  | nil => simp [write_diff_hunks, diffRender]
  | cons h dh ih =>
    have hstep : write_diff_hunks (h :: dh) o
        = write_diff_hunks dh
          (match h with
           | DiffHunk.Matching content =>
             if content = [] then o else writeLinesWith 32 content o
           | DiffHunk.Different l r =>
             let o1 := if l = [] then o else writeLinesWith 45 l o
             if r = [] then o1 else writeLinesWith 43 r o1) := rfl
    rw [hstep, ih, diffRender_cons]
    cases h with
    | Matching c =>
      by_cases hc : c = [] <;>
        simp [hc, renderRegion, lineBlock_nil, writeLinesWith_eq, List.append_assoc]
    | Different l r =>
      by_cases hl : l = [] <;> by_cases hr : r = [] <;>
        simp [hl, hr, renderRegion, lineBlock_nil, writeLinesWith_eq, List.append_assoc]

theorem range_foldl_take {α : Type} (l : List α) (d : α) (g : α → Bytes) :
    ∀ n, n ≤ l.length → ∀ o : Bytes,
      (List.range n).foldl (fun o i => o ++ g (l.getD i d)) o
        = o ++ ((l.take n).map g).flatten
  | 0, _, o => by simp
  | n + 1, h, o => by
    have hn : n < l.length := h
    have hgetD : l.getD n d = l[n] := by
      rw [List.getD_eq_getElem?_getD, List.getElem?_eq_getElem hn]
      rfl
    have htake : (l.take (n + 1)).map g = (l.take n).map g ++ [g l[n]] := by
      rw [List.take_succ, List.getElem?_eq_getElem hn]
      simp only [Option.toList_some, List.map_append, List.map_cons, List.map_nil]
    rw [List.range_succ, List.foldl_append,
      range_foldl_take l d g n (Nat.le_of_lt hn), htake]
    simp only [List.foldl_cons, List.foldl_nil, hgetD, List.flatten_append,
      List.flatten_cons, List.flatten_nil, List.append_nil, List.append_assoc]

theorem zip_getD_lt (rs as : List Bytes) (i : Nat)
    (h : i < min rs.length as.length) :
    (rs.zip as).getD i ([], []) = (rs.getD i [], as.getD i []) := by
  have hiz : i < (rs.zip as).length := by rw [List.length_zip]; exact h
  have hir : i < rs.length := lt_of_lt_of_le h (min_le_left _ _)
  have hia : i < as.length := lt_of_lt_of_le h (min_le_right _ _)
  rw [List.getD_eq_getElem?_getD, List.getElem?_eq_getElem hiz, List.getElem_zip]
  simp [List.getD_eq_getElem?_getD, List.getElem?_eq_getElem hir,
    List.getElem?_eq_getElem hia]

theorem materialize_hunk_conflict (diff : Bytes → Bytes → List DiffHunk)
    (out : Bytes) (rs as : List Bytes) :
    materialize_hunk diff out (MergeHunk.Conflict rs as)
      = out ++ CONFLICT_START_LINE
        ++ ((rs.zip as).map
            (fun p => CONFLICT_MINUS_LINE ++ CONFLICT_PLUS_LINE ++ diffRender (diff p.1 p.2))).flatten
        ++ ((rs.drop (min rs.length as.length)).map
            (fun s => CONFLICT_MINUS_LINE ++ s)).flatten
        ++ ((as.drop (min rs.length as.length)).map
            (fun s => CONFLICT_PLUS_LINE ++ s)).flatten
        ++ CONFLICT_END_LINE := by
  have hzlen : (rs.zip as).length = min rs.length as.length := List.length_zip rs as
  have htakez : (rs.zip as).take (min rs.length as.length) = rs.zip as :=
    hzlen ▸ List.take_length (rs.zip as)
  have hfold := range_foldl_take (rs.zip as) ([], [])
    (fun p => CONFLICT_MINUS_LINE ++ CONFLICT_PLUS_LINE ++ diffRender (diff p.1 p.2))
    (min rs.length as.length) (le_of_eq hzlen.symm) (out ++ CONFLICT_START_LINE)
  rw [htakez] at hfold
  have hext := @List.foldl_ext Bytes Nat
    (fun o i =>
      write_diff_hunks (diff (rs.getD i []) (as.getD i []))
        (o ++ CONFLICT_MINUS_LINE ++ CONFLICT_PLUS_LINE))
    (fun o i => o ++ (fun p => CONFLICT_MINUS_LINE ++ CONFLICT_PLUS_LINE
      ++ diffRender (diff p.1 p.2)) ((rs.zip as).getD i ([], [])))
    (out ++ CONFLICT_START_LINE) (List.range (min rs.length as.length))
    (by
      intro o i hi
      have hi' := List.mem_range.mp hi
      dsimp only
      rw [zip_getD_lt rs as i hi', write_diff_hunks_eq]
      simp [List.append_assoc])
  have hraw1 : ∀ (o : Bytes) (slices : List Bytes),
      slices.foldl (fun o s => o ++ CONFLICT_MINUS_LINE ++ s) o
        = o ++ (slices.map (fun s => CONFLICT_MINUS_LINE ++ s)).flatten := by
    intro o slices
    rw [List.foldl_ext _ (fun o s => o ++ (CONFLICT_MINUS_LINE ++ s)) o
      (by intro a b _; simp)]
    exact foldl_append_acc _ slices o
  have hraw2 : ∀ (o : Bytes) (slices : List Bytes),
      slices.foldl (fun o s => o ++ CONFLICT_PLUS_LINE ++ s) o
        = o ++ (slices.map (fun s => CONFLICT_PLUS_LINE ++ s)).flatten := by
    intro o slices
    rw [List.foldl_ext _ (fun o s => o ++ (CONFLICT_PLUS_LINE ++ s)) o
      (by intro a b _; simp)]
    exact foldl_append_acc _ slices o
  simp only [materialize_hunk]
  rw [hext, hfold, hraw1, hraw2]

theorem materialize_hunk_resolved (diff : Bytes → Bytes → List DiffHunk)
    (out s : Bytes) :
    materialize_hunk diff out (MergeHunk.Resolved s) = out ++ s := rfl

theorem materialize_hunk_out (diff : Bytes → Bytes → List DiffHunk)
    (out : Bytes) (h : MergeHunk) :
    materialize_hunk diff out h = out ++ materialize_hunk diff [] h := by
  cases h with
  | Resolved s => simp [materialize_hunk_resolved]
  | Conflict rs as => rw [materialize_hunk_conflict, materialize_hunk_conflict]; simp

theorem materialize_hunks_fold (diff : Bytes → Bytes → List DiffHunk)
    (hunks : List MergeHunk) : ∀ o : Bytes,
    hunks.foldl (materialize_hunk diff) o
      = o ++ (hunks.map (fun h => materialize_hunk diff [] h)).flatten := by
  induction hunks with
  | nil => intro o; simp
  | cons h hunks ih =>
    intro o
    rw [List.foldl_cons, ih, materialize_hunk_out]
    simp [List.append_assoc]

theorem flatten_regionLines (h : DiffHunk) :
    (regionLines h).flatten = renderRegion h := by
  cases h with
  | Matching c => rfl
  | Different l r => simp [regionLines, renderRegion, lineBlock]

theorem flatten_diffLines (dh : List DiffHunk) :
    (diffLines dh).flatten = diffRender dh := by
  induction dh with
  | nil => rfl
  | cons h dh ih => simp [diffLines, diffRender, List.flatten_append] at ih ⊢
                    rw [← flatten_regionLines h, ih]

theorem flatten_flatten_map {α : Type} (f : α → List Bytes) (xs : List α) :
    ((xs.map f).flatten).flatten = (xs.map (fun x => (f x).flatten)).flatten := by
  induction xs with
  | nil => rfl
  | cons x xs ih => simp [List.flatten_append, ih]

theorem flatten_blockBodyLines (diff : Bytes → Bytes → List DiffHunk)
    (rs as : List Bytes) :
    (blockBodyLines diff rs as).flatten
      = ((rs.zip as).map
          (fun p => CONFLICT_MINUS_LINE ++ CONFLICT_PLUS_LINE ++ diffRender (diff p.1 p.2))).flatten
        ++ ((rs.drop (min rs.length as.length)).map
            (fun s => CONFLICT_MINUS_LINE ++ s)).flatten
        ++ ((as.drop (min rs.length as.length)).map
            (fun s => CONFLICT_PLUS_LINE ++ s)).flatten := by
  have h1 : ∀ p : Bytes × Bytes,
      (CONFLICT_MINUS_LINE :: CONFLICT_PLUS_LINE :: diffLines (diff p.1 p.2)).flatten
        = CONFLICT_MINUS_LINE ++ CONFLICT_PLUS_LINE ++ diffRender (diff p.1 p.2) := by
    intro p
    simp [flatten_diffLines, List.append_assoc]
  have h2 : ∀ s : Bytes, (CONFLICT_MINUS_LINE :: splitInclusive s).flatten
      = CONFLICT_MINUS_LINE ++ s := by
    intro s
    simp [splitInclusive_flatten]
  have h3 : ∀ s : Bytes, (CONFLICT_PLUS_LINE :: splitInclusive s).flatten
      = CONFLICT_PLUS_LINE ++ s := by
    intro s
    simp [splitInclusive_flatten]
  unfold blockBodyLines
  rw [List.flatten_append, List.flatten_append,
    flatten_flatten_map, flatten_flatten_map, flatten_flatten_map]
  simp only [h1, h2, h3]

theorem flatten_hunkLines (diff : Bytes → Bytes → List DiffHunk) (h : MergeHunk) :
    (hunkLines diff h).flatten = materialize_hunk diff [] h := by
  cases h with
  | Resolved s => simp [hunkLines, splitInclusive_flatten, materialize_hunk_resolved]
  | Conflict rs as =>
    rw [materialize_hunk_conflict]
    simp [hunkLines, List.flatten_append, flatten_blockBodyLines, List.append_assoc]

/- Shape facts about rendered lines. -/

theorem properLine_cons {p : Nat} {x : Bytes} (hp : p ≠ 10) (hx : ProperLine x) :
    ProperLine (p :: x) := by
  obtain ⟨core, rfl, h10⟩ := (properLine_iff x).mp hx
  refine (properLine_iff _).mpr ⟨p :: core, rfl, ?_⟩
  intro hmem
  rcases List.mem_cons.mp hmem with h | h
  · exact hp h.symm
  · exact h10 h

theorem marker_proper : ∀ l ∈ markerLines, ProperLine l := by decide

theorem diffLines_shape (dh : List DiffHunk) (hsafe : ∀ h ∈ dh, SafeDiffHunk h) :
    ∀ t ∈ diffLines dh, ProperLine t ∧ t ≠ CONFLICT_MINUS_LINE ∧ t ≠ CONFLICT_PLUS_LINE
      ∧ ∃ x, t = 45 :: x ∨ t = 43 :: x ∨ t = 32 :: x := by
  intro t ht
  rw [diffLines, List.mem_flatten] at ht
  obtain ⟨ls, hls, htls⟩ := ht
  rw [List.mem_map] at hls
  obtain ⟨h, hh, rfl⟩ := hls
  have hs := hsafe h hh
  cases h with
  | Matching c =>
    simp only [regionLines, List.mem_map] at htls
    obtain ⟨x, hx, rfl⟩ := htls
    have hpx : ProperLine x := proper_of_endsNL c hs x hx
    exact ⟨properLine_cons (by decide) hpx,
      cons_ne_of_head minus_head (by decide),
      cons_ne_of_head plus_head (by decide), ⟨x, Or.inr (Or.inr rfl)⟩⟩
  | Different l r =>
    obtain ⟨hel, her, hml, hmr⟩ := hs
    simp only [regionLines, List.mem_append, List.mem_map] at htls
    rcases htls with ⟨x, hx, rfl⟩ | ⟨x, hx, rfl⟩
    · have hpx : ProperLine x := proper_of_endsNL l hel x hx
      refine ⟨properLine_cons (by decide) hpx, ?_,
        cons_ne_of_head plus_head (by decide), ⟨x, Or.inl rfl⟩⟩
      rw [minus_line_eq]
      intro he
      injection he with h1 h2
      exact hml x hx h2
    · have hpx : ProperLine x := proper_of_endsNL r her x hx
      refine ⟨properLine_cons (by decide) hpx,
        cons_ne_of_head minus_head (by decide), ?_, ⟨x, Or.inr (Or.inl rfl)⟩⟩
      rw [plus_line_eq]
      intro he
      injection he with h1 h2
      exact hmr x hx h2

theorem blockBodyLines_shape (diff : Bytes → Bytes → List DiffHunk)
    (rs as : List Bytes) (hsafe : SafeHunk diff (MergeHunk.Conflict rs as)) :
    ∀ t ∈ blockBodyLines diff rs as,
      ProperLine t ∧ t ≠ CONFLICT_START_LINE ∧ t ≠ CONFLICT_END_LINE := by
  obtain ⟨hd, hrawR, hrawA, _⟩ := hsafe
  intro t ht
  have hminus : ProperLine CONFLICT_MINUS_LINE ∧ CONFLICT_MINUS_LINE ≠ CONFLICT_START_LINE
      ∧ CONFLICT_MINUS_LINE ≠ CONFLICT_END_LINE := by decide
  have hplus : ProperLine CONFLICT_PLUS_LINE ∧ CONFLICT_PLUS_LINE ≠ CONFLICT_START_LINE
      ∧ CONFLICT_PLUS_LINE ≠ CONFLICT_END_LINE := by decide
  have hraw : ∀ (s : Bytes), SafeRawSlice s → ∀ x ∈ splitInclusive s,
      ProperLine x ∧ x ≠ CONFLICT_START_LINE ∧ x ≠ CONFLICT_END_LINE := by
    intro s hs x hx
    refine ⟨proper_of_endsNL s hs.1 x hx, ?_, ?_⟩
    · intro he
      exact hs.2 x hx (by rw [he]; simp [markerLines])
    · intro he
      exact hs.2 x hx (by rw [he]; simp [markerLines])
  simp only [blockBodyLines, List.mem_append, List.mem_flatten, List.mem_map] at ht
  rcases ht with (⟨ls, ⟨p, hp, rfl⟩, htls⟩ | ⟨ls, ⟨s, hsmem, rfl⟩, htls⟩) | ⟨ls, ⟨s, hsmem, rfl⟩, htls⟩
  · rcases List.mem_cons.mp htls with rfl | htls
    · exact hminus
    rcases List.mem_cons.mp htls with rfl | htls
    · exact hplus
    · have := diffLines_shape _ (hd p hp).2.2 t htls
      obtain ⟨hpt, _, _, ⟨x, hx⟩⟩ := this
      refine ⟨hpt, ?_, ?_⟩
      · rcases hx with rfl | rfl | rfl
        · exact cons_ne_of_head start_head (by decide)
        · exact cons_ne_of_head start_head (by decide)
        · exact cons_ne_of_head start_head (by decide)
      · rcases hx with rfl | rfl | rfl
        · exact cons_ne_of_head endline_head (by decide)
        · exact cons_ne_of_head endline_head (by decide)
        · exact cons_ne_of_head endline_head (by decide)
  · rcases List.mem_cons.mp htls with rfl | htls
    · exact hminus
    · exact hraw s (hrawR s hsmem) t htls
  · rcases List.mem_cons.mp htls with rfl | htls
    · exact hplus
    · exact hraw s (hrawA s hsmem) t htls

theorem hunkLines_proper (diff : Bytes → Bytes → List DiffHunk) (h : MergeHunk)
    (hs : SafeHunk diff h) : ∀ t ∈ hunkLines diff h, ProperLine t := by
  cases h with
  | Resolved s =>
    intro t ht
    exact proper_of_endsNL s hs.1 t ht
  | Conflict rs as =>
    intro t ht
    rcases List.mem_cons.mp ht with rfl | ht
    · exact marker_proper _ (by simp [markerLines])
    rcases List.mem_append.mp ht with ht | ht
    · exact (blockBodyLines_shape diff rs as hs t ht).1
    · have : t = CONFLICT_END_LINE := by simpa using ht
      subst this
      exact marker_proper _ (by simp [markerLines])

/- Scan lemmas for the line loop of `parse_conflict`. -/

theorem end_ne_start : CONFLICT_END_LINE ≠ CONFLICT_START_LINE := by decide

theorem start_len : CONFLICT_START_LINE.length = 8 := by decide

theorem end_len : CONFLICT_END_LINE.length = 8 := by decide

theorem sliceBytes_mid (a b c : Bytes) :
    sliceBytes (a ++ b ++ c) a.length (a.length + b.length) = b := by
  unfold sliceBytes
  rw [List.append_assoc, List.take_append, List.take_left, List.drop_left]

theorem sliceBytes_init (a c : Bytes) (r : Nat) :
    sliceBytes (a ++ c) r a.length = a.drop r := by
  unfold sliceBytes
  rw [List.take_left]

theorem parse_step_skip (input : Bytes) (nr na : Nat) (H : List MergeHunk)
    (p r : Nat) (line : Bytes) (hline : line ≠ CONFLICT_START_LINE) :
    parse_step input nr na ⟨H, p, r, none⟩ line = ⟨H, p + line.length, r, none⟩ := by
  simp [parse_step, hline]

theorem parse_step_inside (input : Bytes) (nr na : Nat) (H : List MergeHunk)
    (p r cs : Nat) (line : Bytes) (h1 : line ≠ CONFLICT_START_LINE)
    (h2 : line ≠ CONFLICT_END_LINE) :
    parse_step input nr na ⟨H, p, r, some cs⟩ line
      = ⟨H, p + line.length, r, some cs⟩ := by
  simp [parse_step, h1, h2]

theorem scan_outside (input : Bytes) (nr na : Nat) :
    ∀ (lines : List Bytes) (H : List MergeHunk) (p r : Nat),
      (∀ l ∈ lines, l ≠ CONFLICT_START_LINE) →
      lines.foldl (parse_step input nr na) ⟨H, p, r, none⟩
        = ⟨H, p + lines.flatten.length, r, none⟩
  | [], H, p, r, _ => by simp
  | line :: lines, H, p, r, hl => by
    rw [List.foldl_cons, parse_step_skip input nr na H p r line (hl line (by simp)),
      scan_outside input nr na lines H (p + line.length) r
        (fun l h => hl l (by simp [h]))]
    simp [Nat.add_assoc]

theorem scan_inside (input : Bytes) (nr na : Nat) :
    ∀ (lines : List Bytes) (H : List MergeHunk) (p r cs : Nat),
      (∀ l ∈ lines, l ≠ CONFLICT_START_LINE ∧ l ≠ CONFLICT_END_LINE) →
      lines.foldl (parse_step input nr na) ⟨H, p, r, some cs⟩
        = ⟨H, p + lines.flatten.length, r, some cs⟩
  | [], H, p, r, cs, _ => by simp
  | line :: lines, H, p, r, cs, hl => by
    rw [List.foldl_cons,
      parse_step_inside input nr na H p r cs line (hl line (by simp)).1 (hl line (by simp)).2,
      scan_inside input nr na lines H (p + line.length) r cs
        (fun l h => hl l (by simp [h]))]
    simp [Nat.add_assoc]

theorem parse_step_end_accept (input : Bytes) (nr na : Nat) (H : List MergeHunk)
    (p r cs : Nat) (rs as : List Bytes)
    (hhunk : parse_conflict_hunk (sliceBytes input (cs + 8) p) = MergeHunk.Conflict rs as)
    (hr : rs.length = nr) (ha : as.length = na) :
    parse_step input nr na ⟨H, p, r, some cs⟩ CONFLICT_END_LINE
      = ⟨(if sliceBytes input r cs = [] then H
            else H ++ [MergeHunk.Resolved (sliceBytes input r cs)])
          ++ [MergeHunk.Conflict rs as], p + 8, p + 8, none⟩ := by
  simp [parse_step, end_ne_start, start_len, end_len, hhunk, hr, ha]

theorem scan_block (input : Bytes) (nr na : Nat) (pre body suf : Bytes)
    (bodyLines : List Bytes) (H : List MergeHunk) (r : Nat) (rs as : List Bytes)
    (hinput : input = pre ++ (CONFLICT_START_LINE ++ body ++ CONFLICT_END_LINE) ++ suf)
    (hflat : bodyLines.flatten = body)
    (hbl : ∀ l ∈ bodyLines, l ≠ CONFLICT_START_LINE ∧ l ≠ CONFLICT_END_LINE)
    (hhunk : parse_conflict_hunk body = MergeHunk.Conflict rs as)
    (hr : rs.length = nr) (ha : as.length = na) :
    (CONFLICT_START_LINE :: (bodyLines ++ [CONFLICT_END_LINE])).foldl
        (parse_step input nr na) ⟨H, pre.length, r, none⟩
      = ⟨H ++ ((if pre.drop r = [] then [] else [MergeHunk.Resolved (pre.drop r)])
            ++ [MergeHunk.Conflict rs as]),
          pre.length + 8 + body.length + 8, pre.length + 8 + body.length + 8, none⟩ := by
  have hstart : parse_step input nr na ⟨H, pre.length, r, none⟩ CONFLICT_START_LINE
      = ⟨H, pre.length + 8, r, some pre.length⟩ := by
    simp [parse_step, start_len]
  have hslice_body : sliceBytes input (pre.length + 8) (pre.length + 8 + body.length)
      = body := by
    have hshape : input = (pre ++ CONFLICT_START_LINE) ++ body ++ (CONFLICT_END_LINE ++ suf) := by
      rw [hinput]
      simp [List.append_assoc]
    have hlen : (pre ++ CONFLICT_START_LINE).length = pre.length + 8 := by
      simp [start_len]
    rw [hshape, ← hlen]
    exact sliceBytes_mid (pre ++ CONFLICT_START_LINE) body (CONFLICT_END_LINE ++ suf)
  have hslice_res : sliceBytes input r pre.length = pre.drop r := by
    have hshape : input = pre ++ ((CONFLICT_START_LINE ++ body ++ CONFLICT_END_LINE) ++ suf) := by
      rw [hinput, List.append_assoc]
    rw [hshape]
    exact sliceBytes_init pre _ r
  rw [List.foldl_cons, hstart, List.foldl_append,
    scan_inside input nr na bodyLines H (pre.length + 8) r pre.length hbl, hflat,
    List.foldl_cons, List.foldl_nil,
    parse_step_end_accept input nr na H (pre.length + 8 + body.length) r pre.length rs as
      (by rw [hslice_body]; exact hhunk) hr ha, hslice_res]
  by_cases hres : pre.drop r = [] <;> simp [hres]

/- The conflict-hunk body state machine (`parse_hunk_lines`). -/

theorem minus_ne_plus : CONFLICT_MINUS_LINE ≠ CONFLICT_PLUS_LINE := by decide

theorem appendLast_snoc (xs : List Bytes) (x t : Bytes) :
    appendLast (xs ++ [x]) t = xs ++ [x ++ t] := by
  induction xs with
  | nil => rfl
  | cons a xs ih =>
    cases xs with
    | nil => rfl
    | cons c xs2 =>
      show a :: appendLast ((c :: xs2) ++ [x]) t = _
      rw [ih]
      rfl

theorem phl_minus (st : HunkScanState) (rest : List Bytes) :
    parse_hunk_lines st (CONFLICT_MINUS_LINE :: rest)
      = parse_hunk_lines
          ⟨true, !st.bodySeen && st.plusSeen, false, st.removes ++ [[]], st.adds⟩ rest := by
  obtain ⟨ms, ps, bs, R, A⟩ := st
  cases bs <;> simp [parse_hunk_lines]

theorem phl_plus (st : HunkScanState) (rest : List Bytes) :
    parse_hunk_lines st (CONFLICT_PLUS_LINE :: rest)
      = parse_hunk_lines
          ⟨!st.bodySeen && st.minusSeen, true, false, st.removes, st.adds ++ [[]]⟩ rest := by
  obtain ⟨ms, ps, bs, R, A⟩ := st
  cases bs <;> simp [parse_hunk_lines, minus_ne_plus.symm]

theorem phl_content_both (R A : List Bytes) (r0 a0 : Bytes) (bs : Bool)
    (t : Bytes) (rest : List Bytes)
    (h1 : t ≠ CONFLICT_MINUS_LINE) (h2 : t ≠ CONFLICT_PLUS_LINE)
    (h3 : ∃ x, t = 45 :: x ∨ t = 43 :: x ∨ t = 32 :: x) :
    parse_hunk_lines ⟨true, true, bs, R ++ [r0], A ++ [a0]⟩ (t :: rest)
      = parse_hunk_lines
          ⟨true, true, true, R ++ [r0 ++ lineLeft t], A ++ [a0 ++ lineRight t]⟩ rest := by
  obtain ⟨x, hx⟩ := h3
  rcases hx with rfl | rfl | rfl <;>
    simp [parse_hunk_lines, h1, h2, stripLead, lineLeft, lineRight, appendLast_snoc]

theorem phl_content_minus_only (R A : List Bytes) (r0 : Bytes) (bs : Bool)
    (t : Bytes) (rest : List Bytes)
    (h1 : t ≠ CONFLICT_MINUS_LINE) (h2 : t ≠ CONFLICT_PLUS_LINE) :
    parse_hunk_lines ⟨true, false, bs, R ++ [r0], A⟩ (t :: rest)
      = parse_hunk_lines ⟨true, false, true, R ++ [r0 ++ t], A⟩ rest := by
  simp [parse_hunk_lines, h1, h2, appendLast_snoc]

theorem phl_content_plus_only (R A : List Bytes) (a0 : Bytes) (bs : Bool)
    (t : Bytes) (rest : List Bytes)
    (h1 : t ≠ CONFLICT_MINUS_LINE) (h2 : t ≠ CONFLICT_PLUS_LINE) :
    parse_hunk_lines ⟨false, true, bs, R, A ++ [a0]⟩ (t :: rest)
      = parse_hunk_lines ⟨false, true, true, R, A ++ [a0 ++ t]⟩ rest := by
  simp [parse_hunk_lines, h1, h2, appendLast_snoc]

theorem flatten_map_nil {α : Type} (ls : List α) :
    (ls.map (fun _ => ([] : Bytes))).flatten = [] := by
  induction ls <;> simp [*]

theorem leftOfLines_nil : leftOfLines [] = [] := rfl

theorem rightOfLines_nil : rightOfLines [] = [] := rfl

theorem leftOfLines_cons (t : Bytes) (ls : List Bytes) :
    leftOfLines (t :: ls) = lineLeft t ++ leftOfLines ls := by
  simp [leftOfLines]

theorem rightOfLines_cons (t : Bytes) (ls : List Bytes) :
    rightOfLines (t :: ls) = lineRight t ++ rightOfLines ls := by
  simp [rightOfLines]

theorem leftOfLines_append (a b : List Bytes) :
    leftOfLines (a ++ b) = leftOfLines a ++ leftOfLines b := by
  simp [leftOfLines]

theorem rightOfLines_append (a b : List Bytes) :
    rightOfLines (a ++ b) = rightOfLines a ++ rightOfLines b := by
  simp [rightOfLines]

theorem lineLeft_cons45 (x : Bytes) : lineLeft (45 :: x) = x := rfl

theorem lineLeft_cons32 (x : Bytes) : lineLeft (32 :: x) = x := rfl

theorem lineLeft_cons43 (x : Bytes) : lineLeft (43 :: x) = [] := rfl

theorem lineRight_cons45 (x : Bytes) : lineRight (45 :: x) = [] := rfl

theorem lineRight_cons32 (x : Bytes) : lineRight (32 :: x) = x := rfl

theorem lineRight_cons43 (x : Bytes) : lineRight (43 :: x) = x := rfl

theorem leftOfLines_diffLines (dh : List DiffHunk) :
    leftOfLines (diffLines dh) = leftJoin dh := by
  induction dh with
  | nil => rfl
  | cons h dh ih =>
    rw [show diffLines (h :: dh) = regionLines h ++ diffLines dh from by simp [diffLines],
      leftOfLines_append, ih]
    cases h with
    | Matching c =>
      simp [regionLines, leftOfLines, leftJoin, List.map_map, Function.comp_def,
        lineLeft_cons32, splitInclusive_flatten]
    | Different l r =>
      simp [regionLines, leftOfLines, leftJoin, List.map_map, Function.comp_def,
        lineLeft_cons45, lineLeft_cons43, splitInclusive_flatten, flatten_map_nil]

theorem rightOfLines_diffLines (dh : List DiffHunk) :
    rightOfLines (diffLines dh) = rightJoin dh := by
  induction dh with
  | nil => rfl
  | cons h dh ih =>
    rw [show diffLines (h :: dh) = regionLines h ++ diffLines dh from by simp [diffLines],
      rightOfLines_append, ih]
    cases h with
    | Matching c =>
      simp [regionLines, rightOfLines, rightJoin, List.map_map, Function.comp_def,
        lineRight_cons32, splitInclusive_flatten]
    | Different l r =>
      simp [regionLines, rightOfLines, rightJoin, List.map_map, Function.comp_def,
        lineRight_cons45, lineRight_cons43, splitInclusive_flatten, flatten_map_nil]

theorem phl_diff_lines : ∀ (ls rest : List Bytes) (R A : List Bytes)
    (r0 a0 : Bytes) (bs : Bool),
    (∀ t ∈ ls, (t ≠ CONFLICT_MINUS_LINE ∧ t ≠ CONFLICT_PLUS_LINE)
      ∧ ∃ x, t = 45 :: x ∨ t = 43 :: x ∨ t = 32 :: x) →
    parse_hunk_lines ⟨true, true, bs, R ++ [r0], A ++ [a0]⟩ (ls ++ rest)
      = parse_hunk_lines
          ⟨true, true, bs || !ls.isEmpty,
            R ++ [r0 ++ leftOfLines ls], A ++ [a0 ++ rightOfLines ls]⟩ rest
  | [], rest, R, A, r0, a0, bs, _ => by
    simp [leftOfLines_nil, rightOfLines_nil]
  | t :: ls, rest, R, A, r0, a0, bs, h => by
    have ht := h t (by simp)
    rw [List.cons_append, phl_content_both R A r0 a0 bs t _ ht.1.1 ht.1.2 ht.2,
      phl_diff_lines ls rest R A (r0 ++ lineLeft t) (a0 ++ lineRight t) true
        (fun l hl => h l (by simp [hl]))]
    simp [leftOfLines_cons, rightOfLines_cons, List.append_assoc]

theorem phl_raw_minus_lines : ∀ (ls rest : List Bytes) (R A : List Bytes)
    (r0 : Bytes) (bs : Bool),
    (∀ t ∈ ls, t ≠ CONFLICT_MINUS_LINE ∧ t ≠ CONFLICT_PLUS_LINE) →
    parse_hunk_lines ⟨true, false, bs, R ++ [r0], A⟩ (ls ++ rest)
      = parse_hunk_lines
          ⟨true, false, bs || !ls.isEmpty, R ++ [r0 ++ ls.flatten], A⟩ rest
  | [], rest, R, A, r0, bs, _ => by simp
  | t :: ls, rest, R, A, r0, bs, h => by
    have ht := h t (by simp)
    rw [List.cons_append, phl_content_minus_only R A r0 bs t _ ht.1 ht.2,
      phl_raw_minus_lines ls rest R A (r0 ++ t) true (fun l hl => h l (by simp [hl]))]
    simp [List.append_assoc]

theorem phl_raw_plus_lines : ∀ (ls rest : List Bytes) (R A : List Bytes)
    (a0 : Bytes) (bs : Bool),
    (∀ t ∈ ls, t ≠ CONFLICT_MINUS_LINE ∧ t ≠ CONFLICT_PLUS_LINE) →
    parse_hunk_lines ⟨false, true, bs, R, A ++ [a0]⟩ (ls ++ rest)
      = parse_hunk_lines
          ⟨false, true, bs || !ls.isEmpty, R, A ++ [a0 ++ ls.flatten]⟩ rest
  | [], rest, R, A, a0, bs, _ => by simp
  | t :: ls, rest, R, A, a0, bs, h => by
    have ht := h t (by simp)
    rw [List.cons_append, phl_content_plus_only R A a0 bs t _ ht.1 ht.2,
      phl_raw_plus_lines ls rest R A (a0 ++ t) true (fun l hl => h l (by simp [hl]))]
    simp [List.append_assoc]

theorem phl_pair_block (st : HunkScanState) (dls rest : List Bytes)
    (h : ∀ t ∈ dls, (t ≠ CONFLICT_MINUS_LINE ∧ t ≠ CONFLICT_PLUS_LINE)
      ∧ ∃ x, t = 45 :: x ∨ t = 43 :: x ∨ t = 32 :: x) :
    parse_hunk_lines st
        (CONFLICT_MINUS_LINE :: CONFLICT_PLUS_LINE :: (dls ++ rest))
      = parse_hunk_lines
          ⟨true, true, !dls.isEmpty,
            st.removes ++ [leftOfLines dls], st.adds ++ [rightOfLines dls]⟩ rest := by
  rw [phl_minus, phl_plus]
  have hclean : parse_hunk_lines
      ⟨!(false : Bool) && true, true, false, st.removes ++ [[]], st.adds ++ [[]]⟩
        (dls ++ rest)
      = parse_hunk_lines ⟨true, true, false, st.removes ++ [[]], st.adds ++ [[]]⟩
        (dls ++ rest) := by norm_num
  rw [show (⟨!(⟨true, !st.bodySeen && st.plusSeen, false, st.removes ++ [[]], st.adds⟩
        : HunkScanState).bodySeen
      && (⟨true, !st.bodySeen && st.plusSeen, false, st.removes ++ [[]], st.adds⟩
        : HunkScanState).minusSeen, true, false,
      (⟨true, !st.bodySeen && st.plusSeen, false, st.removes ++ [[]], st.adds⟩
        : HunkScanState).removes,
      (⟨true, !st.bodySeen && st.plusSeen, false, st.removes ++ [[]], st.adds⟩
        : HunkScanState).adds ++ [[]]⟩ : HunkScanState)
      = (⟨true, true, false, st.removes ++ [[]], st.adds ++ [[]]⟩ : HunkScanState)
    from by simp]
  rw [phl_diff_lines dls rest st.removes st.adds [] [] false h]
  simp

theorem phl_pairs (diff : Bytes → Bytes → List DiffHunk) :
    ∀ (pairs : List (Bytes × Bytes)) (rest : List Bytes) (st : HunkScanState),
    (∀ p ∈ pairs, SafeDiff diff p.1 p.2) → pairs ≠ [] →
    ∃ b : Bool,
      parse_hunk_lines st
          ((pairs.map (fun p => CONFLICT_MINUS_LINE :: CONFLICT_PLUS_LINE
              :: diffLines (diff p.1 p.2))).flatten ++ rest)
        = parse_hunk_lines
            ⟨true, true, b, st.removes ++ pairs.map Prod.fst,
              st.adds ++ pairs.map Prod.snd⟩ rest
      ∧ (∀ p ∈ pairs.getLast?.toList, diffLines (diff p.1 p.2) ≠ [] → b = true)
  | [], _, _, _, hne => absurd rfl hne
  | [p], rest, st, hsafe, _ => by
    have hsd := hsafe p (by simp)
    have hlines : ∀ t ∈ diffLines (diff p.1 p.2),
        (t ≠ CONFLICT_MINUS_LINE ∧ t ≠ CONFLICT_PLUS_LINE)
          ∧ ∃ x, t = 45 :: x ∨ t = 43 :: x ∨ t = 32 :: x := by
      intro t ht
      have z := diffLines_shape _ hsd.2.2 t ht
      exact ⟨⟨z.2.1, z.2.2.1⟩, z.2.2.2⟩
    refine ⟨!(diffLines (diff p.1 p.2)).isEmpty, ?_, ?_⟩
    · rw [show ([p].map (fun p => CONFLICT_MINUS_LINE :: CONFLICT_PLUS_LINE
          :: diffLines (diff p.1 p.2))).flatten
          = CONFLICT_MINUS_LINE :: CONFLICT_PLUS_LINE :: diffLines (diff p.1 p.2)
        from by simp]
      rw [List.cons_append, List.cons_append, phl_pair_block st _ rest hlines]
      rw [leftOfLines_diffLines, rightOfLines_diffLines, hsd.1, hsd.2.1]
      simp
    · intro q hq hne
      simp at hq
      subst hq
      simp [hne]
  | p :: q :: pairs, rest, st, hsafe, _ => by
    have hsd := hsafe p (by simp)
    have hlines : ∀ t ∈ diffLines (diff p.1 p.2),
        (t ≠ CONFLICT_MINUS_LINE ∧ t ≠ CONFLICT_PLUS_LINE)
          ∧ ∃ x, t = 45 :: x ∨ t = 43 :: x ∨ t = 32 :: x := by
      intro t ht
      have z := diffLines_shape _ hsd.2.2 t ht
      exact ⟨⟨z.2.1, z.2.2.1⟩, z.2.2.2⟩
    obtain ⟨b, heq, hbp⟩ := phl_pairs diff (q :: pairs) rest
      ⟨true, true, !(diffLines (diff p.1 p.2)).isEmpty,
        st.removes ++ [p.1], st.adds ++ [p.2]⟩
      (fun r hr => hsafe r (by simp [hr])) (by simp)
    refine ⟨b, ?_, ?_⟩
    · rw [List.map_cons, List.flatten_cons, List.append_assoc,
        List.cons_append, List.cons_append, phl_pair_block st _ _ hlines,
        leftOfLines_diffLines, rightOfLines_diffLines, hsd.1, hsd.2.1, heq]
      simp [List.append_assoc]
    · intro r hr hne
      exact hbp r (by simpa [List.getLast?_cons_cons] using hr) hne

theorem phl_raw_minus_final : ∀ (slices : List Bytes) (st : HunkScanState),
    (∀ s ∈ slices, SafeRawSlice s) → (st.plusSeen = false ∨ st.bodySeen = true) →
    parse_hunk_lines st
        ((slices.map (fun s => CONFLICT_MINUS_LINE :: splitInclusive s)).flatten)
      = MergeHunk.Conflict (st.removes ++ slices) st.adds
  | [], st, _, _ => by simp [parse_hunk_lines]
  | s :: slices, st, hsafe, hentry => by
    have hps : (!st.bodySeen && st.plusSeen) = false := by
      rcases hentry with h | h <;> simp [h]
    have hlines : ∀ t ∈ splitInclusive s,
        t ≠ CONFLICT_MINUS_LINE ∧ t ≠ CONFLICT_PLUS_LINE := by
      intro t ht
      have := (hsafe s (by simp)).2 t ht
      constructor
      · intro he; exact this (by rw [he]; simp [markerLines])
      · intro he; exact this (by rw [he]; simp [markerLines])
    rw [List.map_cons, List.flatten_cons, List.cons_append, phl_minus, hps,
      phl_raw_minus_lines (splitInclusive s) _ st.removes st.adds [] false hlines,
      splitInclusive_flatten]
    rw [phl_raw_minus_final slices
      ⟨true, false, false || !(splitInclusive s).isEmpty,
        st.removes ++ [[] ++ s], st.adds⟩
      (fun x hx => hsafe x (by simp [hx])) (Or.inl rfl)]
    simp

theorem phl_raw_plus_final : ∀ (slices : List Bytes) (st : HunkScanState),
    (∀ s ∈ slices, SafeRawSlice s) → (st.minusSeen = false ∨ st.bodySeen = true) →
    parse_hunk_lines st
        ((slices.map (fun s => CONFLICT_PLUS_LINE :: splitInclusive s)).flatten)
      = MergeHunk.Conflict st.removes (st.adds ++ slices)
  | [], st, _, _ => by simp [parse_hunk_lines]
  | s :: slices, st, hsafe, hentry => by
    have hms : (!st.bodySeen && st.minusSeen) = false := by
      rcases hentry with h | h <;> simp [h]
    have hlines : ∀ t ∈ splitInclusive s,
        t ≠ CONFLICT_MINUS_LINE ∧ t ≠ CONFLICT_PLUS_LINE := by
      intro t ht
      have := (hsafe s (by simp)).2 t ht
      constructor
      · intro he; exact this (by rw [he]; simp [markerLines])
      · intro he; exact this (by rw [he]; simp [markerLines])
    rw [List.map_cons, List.flatten_cons, List.cons_append, phl_plus, hms,
      phl_raw_plus_lines (splitInclusive s) _ st.removes st.adds [] false hlines,
      splitInclusive_flatten]
    rw [phl_raw_plus_final slices
      ⟨false, true, false || !(splitInclusive s).isEmpty,
        st.removes, st.adds ++ [[] ++ s]⟩
      (fun x hx => hsafe x (by simp [hx])) (Or.inl rfl)]
    simp

theorem map_fst_zip_take (rs as : List Bytes) :
    (rs.zip as).map Prod.fst = rs.take (min rs.length as.length) := by
  induction rs generalizing as with
  | nil => simp
  | cons a rs ih =>
    cases as with
    | nil => simp
    | cons b as => simp [ih, Nat.succ_min_succ]

theorem map_snd_zip_take (rs as : List Bytes) :
    (rs.zip as).map Prod.snd = as.take (min rs.length as.length) := by
  induction rs generalizing as with
  | nil => simp
  | cons a rs ih =>
    cases as with
    | nil => simp
    | cons b as => simp [ih, Nat.succ_min_succ]

theorem parse_hunk_body (diff : Bytes → Bytes → List DiffHunk) (rs as : List Bytes)
    (hsafe : SafeHunk diff (MergeHunk.Conflict rs as)) :
    parse_hunk_lines ⟨false, false, false, [], []⟩ (blockBodyLines diff rs as)
      = MergeHunk.Conflict rs as := by
  obtain ⟨hd, hrawR, hrawA, hbusy⟩ := hsafe
  by_cases hzn : rs.zip as = []
  · have hmin0 : min rs.length as.length = 0 := by
      rw [← List.length_zip, hzn]
      rfl
    rcases Nat.min_eq_zero_iff.mp hmin0 with h0 | h0
    · have hrs : rs = [] := List.length_eq_zero.mp h0
      subst hrs
      rw [show blockBodyLines diff [] as
          = (as.map (fun s => CONFLICT_PLUS_LINE :: splitInclusive s)).flatten from by
        simp [blockBodyLines]]
      rw [phl_raw_plus_final as ⟨false, false, false, [], []⟩
        (fun s hs => hrawA s (by simpa using hs)) (Or.inl rfl)]
      rfl
    · have has : as = [] := List.length_eq_zero.mp h0
      subst has
      rw [show blockBodyLines diff rs []
          = (rs.map (fun s => CONFLICT_MINUS_LINE :: splitInclusive s)).flatten from by
        simp [blockBodyLines]]
      rw [phl_raw_minus_final rs ⟨false, false, false, [], []⟩
        (fun s hs => hrawR s (by simpa using hs)) (Or.inl rfl)]
      rfl
  · rcases Nat.lt_trichotomy rs.length as.length with hlt | hEq | hgt
    · -- more adds than removes: paired section then raw add slices
      have hk : min rs.length as.length = rs.length := min_eq_left (Nat.le_of_lt hlt)
      have hrawM : rs.drop (min rs.length as.length) = [] := by
        rw [hk, List.drop_length]
      obtain ⟨b, heq, hbp⟩ := phl_pairs diff (rs.zip as)
        ((as.drop (min rs.length as.length)).map
          (fun s => CONFLICT_PLUS_LINE :: splitInclusive s)).flatten
        ⟨false, false, false, [], []⟩ hd hzn
      have hb : b = true := by
        have hlast : (rs.zip as).getLast? = some ((rs.zip as).getLast hzn) :=
          List.getLast?_eq_getLast _ hzn
        have hbusy2 : LastPairBusy diff rs as := by
          rcases hbusy with h | h
          · exact absurd h (Nat.ne_of_lt hlt)
          · exact h
        exact hbp ((rs.zip as).getLast hzn) (by simp [hlast])
          (hbusy2 ((rs.zip as).getLast hzn) (by simp [hlast]))
      rw [show blockBodyLines diff rs as
          = ((rs.zip as).map (fun p => CONFLICT_MINUS_LINE :: CONFLICT_PLUS_LINE
              :: diffLines (diff p.1 p.2))).flatten
            ++ ((as.drop (min rs.length as.length)).map
                (fun s => CONFLICT_PLUS_LINE :: splitInclusive s)).flatten from by
        rw [blockBodyLines, hrawM]
        simp]
      rw [heq, hb]
      rw [phl_raw_plus_final (as.drop (min rs.length as.length))
        ⟨true, true, true, [] ++ (rs.zip as).map Prod.fst, [] ++ (rs.zip as).map Prod.snd⟩
        (fun s hs => hrawA s hs) (Or.inr rfl)]
      rw [map_fst_zip_take, map_snd_zip_take]
      simp [hk, List.take_append_drop]
    · -- equal arities: paired section only
      have hk : min rs.length as.length = rs.length := by
        rw [hEq, min_self]
      have hrawM : rs.drop (min rs.length as.length) = [] := by
        rw [hk, List.drop_length]
      have hrawP : as.drop (min rs.length as.length) = [] := by
        rw [hk, hEq, List.drop_length]
      obtain ⟨b, heq, _⟩ := phl_pairs diff (rs.zip as) []
        ⟨false, false, false, [], []⟩ hd hzn
      rw [show blockBodyLines diff rs as
          = ((rs.zip as).map (fun p => CONFLICT_MINUS_LINE :: CONFLICT_PLUS_LINE
              :: diffLines (diff p.1 p.2))).flatten ++ [] from by
        rw [blockBodyLines, hrawM, hrawP]
        simp]
      rw [heq]
      rw [List.map_fst_zip rs as (Nat.le_of_eq hEq),
        List.map_snd_zip rs as (Nat.le_of_eq hEq.symm)]
      rfl
    · -- more removes than adds: paired section then raw remove slices
      have hk : min rs.length as.length = as.length := min_eq_right (Nat.le_of_lt hgt)
      have hrawP : as.drop (min rs.length as.length) = [] := by
        rw [hk, List.drop_length]
      obtain ⟨b, heq, hbp⟩ := phl_pairs diff (rs.zip as)
        ((rs.drop (min rs.length as.length)).map
          (fun s => CONFLICT_MINUS_LINE :: splitInclusive s)).flatten
        ⟨false, false, false, [], []⟩ hd hzn
      have hb : b = true := by
        have hlast : (rs.zip as).getLast? = some ((rs.zip as).getLast hzn) :=
          List.getLast?_eq_getLast _ hzn
        have hbusy2 : LastPairBusy diff rs as := by
          rcases hbusy with h | h
          · exact absurd h (Nat.ne_of_gt hgt)
          · exact h
        exact hbp ((rs.zip as).getLast hzn) (by simp [hlast])
          (hbusy2 ((rs.zip as).getLast hzn) (by simp [hlast]))
      rw [show blockBodyLines diff rs as
          = ((rs.zip as).map (fun p => CONFLICT_MINUS_LINE :: CONFLICT_PLUS_LINE
              :: diffLines (diff p.1 p.2))).flatten
            ++ ((rs.drop (min rs.length as.length)).map
                (fun s => CONFLICT_MINUS_LINE :: splitInclusive s)).flatten from by
        rw [blockBodyLines, hrawP]
        simp]
      rw [heq, hb]
      rw [phl_raw_minus_final (rs.drop (min rs.length as.length))
        ⟨true, true, true, [] ++ (rs.zip as).map Prod.fst, [] ++ (rs.zip as).map Prod.snd⟩
        (fun s hs => hrawR s hs) (Or.inr rfl)]
      rw [map_fst_zip_take, map_snd_zip_take]
      simp [hk, List.take_append_drop]

theorem parse_conflict_hunk_body (diff : Bytes → Bytes → List DiffHunk)
    (rs as : List Bytes) (hsafe : SafeHunk diff (MergeHunk.Conflict rs as)) :
    parse_conflict_hunk ((blockBodyLines diff rs as).flatten)
      = MergeHunk.Conflict rs as := by
  unfold parse_conflict_hunk
  rw [splitInclusive_of_proper _
    (fun t ht => (blockBodyLines_shape diff rs as hsafe t ht).1)]
  exact parse_hunk_body diff rs as hsafe

/- The full scan over a rendered hunk sequence. -/

theorem flatten_hunkLines_conflict (diff : Bytes → Bytes → List DiffHunk)
    (rs as : List Bytes) :
    (hunkLines diff (MergeHunk.Conflict rs as)).flatten
      = CONFLICT_START_LINE ++ (blockBodyLines diff rs as).flatten
        ++ CONFLICT_END_LINE := by
  simp [hunkLines, List.flatten_append, List.append_assoc]

theorem scan_hunks (input : Bytes) (nr na : Nat)
    (diff : Bytes → Bytes → List DiffHunk) :
    ∀ (hunks : List MergeHunk) (pre : Bytes) (H : List MergeHunk) (r : Nat),
    input = pre ++ ((hunks.map (hunkLines diff)).flatten).flatten →
    (∀ h ∈ hunks, SafeHunk diff h) →
    (∀ rs as, MergeHunk.Conflict rs as ∈ hunks → rs.length = nr ∧ as.length = na) →
    r ≤ pre.length →
    ∃ (H2 : List MergeHunk) (r2 : Nat),
      ((hunks.map (hunkLines diff)).flatten).foldl (parse_step input nr na)
          ⟨H, pre.length, r, none⟩
        = ⟨H ++ H2, input.length, r2, none⟩
      ∧ r2 ≤ input.length
      ∧ ((∃ rs as, MergeHunk.Conflict rs as ∈ hunks) → H2 ≠ [])
      ∧ ∀ (g : MergeHunk → Bytes), (∀ s, g (MergeHunk.Resolved s) = s) →
          (H2.map g).flatten ++ input.drop r2
            = pre.drop r ++ ((hunks.map g)).flatten
  | [], pre, H, r, hinput, _, _, hr => by
    refine ⟨[], r, ?_, ?_, by simp, ?_⟩
    · simp only [List.map_nil, List.flatten_nil, List.foldl_nil]
      have : input.length = pre.length := by rw [hinput]; simp
      rw [this]
      simp
    · rw [hinput]
      simpa using le_trans hr (by simp)
    · intro g _
      rw [hinput]
      simp
  | MergeHunk.Resolved s :: hunks, pre, H, r, hinput, hsafe, harity, hr => by
    have hs := hsafe (MergeHunk.Resolved s) (by simp)
    have hlines : ∀ l ∈ splitInclusive s, l ≠ CONFLICT_START_LINE := hs.2
    have hinput2 : input = (pre ++ s) ++ ((hunks.map (hunkLines diff)).flatten).flatten := by
      rw [hinput]
      simp [hunkLines, splitInclusive_flatten, List.append_assoc]
    obtain ⟨H2, r2, hfold, hr2, hne, hcontrib⟩ :=
      scan_hunks input nr na diff hunks (pre ++ s) H r hinput2
        (fun h hh => hsafe h (by simp [hh]))
        (fun rs as hmem => harity rs as (by simp [hmem]))
        (le_trans hr (by simp))
    refine ⟨H2, r2, ?_, hr2, ?_, ?_⟩
    · rw [List.map_cons, List.flatten_cons, List.foldl_append,
        show hunkLines diff (MergeHunk.Resolved s) = splitInclusive s from rfl,
        scan_outside input nr na (splitInclusive s) H pre.length r hlines,
        splitInclusive_flatten]
      rw [show pre.length + s.length = (pre ++ s).length from by simp]
      exact hfold
    · intro ⟨rs, as, hmem⟩
      rcases List.mem_cons.mp hmem with h | h
      · cases h
      · exact hne ⟨rs, as, h⟩
    · intro g hg
      rw [hcontrib g hg, List.drop_append_of_le_length hr]
      simp [hg, List.append_assoc]
  | MergeHunk.Conflict rs as :: hunks, pre, H, r, hinput, hsafe, harity, hr => by
    have hs := hsafe (MergeHunk.Conflict rs as) (by simp)
    have harh := harity rs as (by simp)
    set bodyBytes := (blockBodyLines diff rs as).flatten with hbody
    have hinput2 : input
        = (pre ++ CONFLICT_START_LINE ++ bodyBytes ++ CONFLICT_END_LINE)
          ++ ((hunks.map (hunkLines diff)).flatten).flatten := by
      rw [hinput, List.map_cons, List.flatten_cons, List.flatten_append,
        flatten_hunkLines_conflict]
      simp [List.append_assoc]
    have hpre2len : (pre ++ CONFLICT_START_LINE ++ bodyBytes ++ CONFLICT_END_LINE).length
        = pre.length + 8 + bodyBytes.length + 8 := by
      simp [start_len, end_len]
      omega
    obtain ⟨H2, r2, hfold, hr2, _, hcontrib⟩ :=
      scan_hunks input nr na diff hunks
        (pre ++ CONFLICT_START_LINE ++ bodyBytes ++ CONFLICT_END_LINE)
        (H ++ ((if pre.drop r = [] then [] else [MergeHunk.Resolved (pre.drop r)])
          ++ [MergeHunk.Conflict rs as]))
        (pre ++ CONFLICT_START_LINE ++ bodyBytes ++ CONFLICT_END_LINE).length
        hinput2
        (fun h hh => hsafe h (by simp [hh]))
        (fun rs2 as2 hmem => harity rs2 as2 (by simp [hmem]))
        (le_refl _)
    refine ⟨(if pre.drop r = [] then [] else [MergeHunk.Resolved (pre.drop r)])
        ++ [MergeHunk.Conflict rs as] ++ H2, r2, ?_, hr2, by simp, ?_⟩
    · rw [List.map_cons, List.flatten_cons, List.foldl_append,
        show hunkLines diff (MergeHunk.Conflict rs as)
          = CONFLICT_START_LINE :: (blockBodyLines diff rs as ++ [CONFLICT_END_LINE])
          from rfl,
        scan_block input nr na pre bodyBytes
          (((hunks.map (hunkLines diff)).flatten).flatten)
          (blockBodyLines diff rs as) H r rs as
          (by rw [hinput2]; simp [List.append_assoc])
          rfl
          (fun l hl => ⟨(blockBodyLines_shape diff rs as hs l hl).2.1,
            (blockBodyLines_shape diff rs as hs l hl).2.2⟩)
          (parse_conflict_hunk_body diff rs as hs) harh.1 harh.2]
      rw [show pre.length + 8 + bodyBytes.length + 8
          = (pre ++ CONFLICT_START_LINE ++ bodyBytes ++ CONFLICT_END_LINE).length
          from hpre2len.symm]
      rw [hfold]
      simp [List.append_assoc]
    · intro g hg
      have hc := hcontrib g hg
      rw [List.drop_length] at hc
      rw [List.map_append, List.map_append, List.flatten_append, List.flatten_append,
        List.append_assoc, List.append_assoc, hc]
      by_cases hres : pre.drop r = [] <;>
        simp [hres, hg, List.append_assoc]

theorem parse_materialized_hunks (diff : Bytes → Bytes → List DiffHunk)
    (nr na : Nat) (hunks : List MergeHunk)
    (hsafe : ∀ h ∈ hunks, SafeHunk diff h)
    (harity : ∀ rs as, MergeHunk.Conflict rs as ∈ hunks
      → rs.length = nr ∧ as.length = na)
    (hex : ∃ rs as, MergeHunk.Conflict rs as ∈ hunks) :
    ∃ hs, parse_conflict (hunks.foldl (materialize_hunk diff) []) nr na = some hs
      ∧ ∀ (g : MergeHunk → Bytes), (∀ s, g (MergeHunk.Resolved s) = s) →
          (hs.map g).flatten = ((hunks.map g)).flatten := by
  set input := hunks.foldl (materialize_hunk diff) [] with hin
  have hinput : input = ((hunks.map (hunkLines diff)).flatten).flatten := by
    rw [hin, materialize_hunks_fold diff hunks [], flatten_flatten_map]
    simp [flatten_hunkLines]
  have hlines : splitInclusive input = (hunks.map (hunkLines diff)).flatten := by
    rw [hinput]
    refine splitInclusive_of_proper _ ?_
    intro l hl
    obtain ⟨ls, hls, hlls⟩ := List.mem_flatten.mp hl
    obtain ⟨h, hh, rfl⟩ := List.mem_map.mp hls
    exact hunkLines_proper diff h (hsafe h hh) l hlls
  obtain ⟨rs0, as0, hmem0⟩ := hex
  have hstart_mem : CONFLICT_START_LINE ∈ (hunks.map (hunkLines diff)).flatten := by
    refine List.mem_flatten.mpr ⟨hunkLines diff (MergeHunk.Conflict rs0 as0),
      List.mem_map_of_mem _ hmem0, ?_⟩
    simp [hunkLines]
  have hinne : input ≠ [] := by
    intro he
    rw [he] at hlines
    rw [show splitInclusive [] = [] from rfl] at hlines
    rw [← hlines] at hstart_mem
    simp at hstart_mem
  obtain ⟨H2, r2, hfold, hr2, hne, hcontrib⟩ :=
    scan_hunks input nr na diff hunks [] [] 0 (by simpa using hinput) hsafe harity
      (by simp)
  have hscan : parse_scan input nr na = ⟨H2, input.length, r2, none⟩ := by
    rw [parse_scan, hlines]
    simpa using hfold
  have hH2 : H2 ≠ [] := hne ⟨rs0, as0, hmem0⟩
  rw [show parse_conflict input nr na
      = (if input = [] then none
        else
          let st := parse_scan input nr na
          if st.hunks = [] then none
          else if st.resolvedStart < input.length then
            some (st.hunks ++ [MergeHunk.Resolved (input.drop st.resolvedStart)])
          else some st.hunks) from rfl]
  rw [if_neg hinne, hscan]
  by_cases hlt : r2 < input.length
  · refine ⟨H2 ++ [MergeHunk.Resolved (input.drop r2)], by simp [hH2, hlt], ?_⟩
    intro g hg
    have hc := hcontrib g hg
    simp only [List.drop_nil, List.map_nil, List.flatten_nil, List.nil_append] at hc
    rw [List.map_append, List.flatten_append, ← hc]
    simp [hg]
  · refine ⟨H2, by simp [hH2, hlt], ?_⟩
    intro g hg
    have hc := hcontrib g hg
    simp only [List.drop_nil, List.map_nil, List.flatten_nil, List.nil_append] at hc
    rw [← hc, List.drop_eq_nil_iff.mpr (Nat.le_of_not_lt hlt)]
    simp

/- The updater's reconstruction loop. -/

theorem getD_map_suffix (B : List Bytes) (s : Bytes) (i : Nat) (h : i < B.length) :
    (B.map (· ++ s)).getD i [] = B.getD i [] ++ s := by
  rw [List.getD_eq_getElem _ _ (by simpa using h), List.getElem_map,
    List.getD_eq_getElem _ _ h]

theorem addToBuffers_getD (B rsb : List Bytes) (hlen : rsb.length = B.length) :
    (addToBuffers B rsb).length = B.length
      ∧ ∀ i, i < B.length → (addToBuffers B rsb).getD i []
          = B.getD i [] ++ rsb.getD i [] := by
  unfold addToBuffers
  rw [hlen, List.drop_length, List.append_nil]
  constructor
  · simp [List.length_zipWith, hlen]
  · intro i hi
    have hiz : i < (List.zipWith (fun b hb => b ++ hb) B rsb).length := by
      simp [List.length_zipWith, hlen]
      exact hi
    rw [List.getD_eq_getElem _ _ hiz, List.getElem_zipWith,
      ← List.getD_eq_getElem B [] hi,
      ← List.getD_eq_getElem rsb [] (by rw [hlen]; exact hi)]

theorem reconstruct_foldl : ∀ (hunks : List MergeHunk) (B1 B2 : List Bytes),
    (∀ rs as, MergeHunk.Conflict rs as ∈ hunks
      → rs.length = B1.length ∧ as.length = B2.length) →
    ((hunks.foldl apply_hunk (B1, B2)).1.length = B1.length
      ∧ (hunks.foldl apply_hunk (B1, B2)).2.length = B2.length)
    ∧ ∀ i : Nat,
        (i < B1.length → (hunks.foldl apply_hunk (B1, B2)).1.getD i []
          = B1.getD i [] ++ (hunks.map (removeContrib i)).flatten)
      ∧ (i < B2.length → (hunks.foldl apply_hunk (B1, B2)).2.getD i []
          = B2.getD i [] ++ (hunks.map (addContrib i)).flatten)
  | [], B1, B2, _ => by simp
  | MergeHunk.Resolved s :: hunks, B1, B2, harity => by
    have ih := reconstruct_foldl hunks (B1.map (· ++ s)) (B2.map (· ++ s))
      (fun rs as hm => by simpa using harity rs as (by simp [hm]))
    have hstep : (MergeHunk.Resolved s :: hunks).foldl apply_hunk (B1, B2)
        = hunks.foldl apply_hunk (B1.map (· ++ s), B2.map (· ++ s)) := rfl
    rw [hstep]
    refine ⟨⟨by simpa using ih.1.1, by simpa using ih.1.2⟩, ?_⟩
    intro i
    constructor
    · intro hi
      rw [(ih.2 i).1 (by simpa using hi), getD_map_suffix B1 s i hi]
      simp [removeContrib, List.append_assoc]
    · intro hi
      rw [(ih.2 i).2 (by simpa using hi), getD_map_suffix B2 s i hi]
      simp [addContrib, List.append_assoc]
  | MergeHunk.Conflict rs as :: hunks, B1, B2, harity => by
    have harh := harity rs as (by simp)
    have hB1 := addToBuffers_getD B1 rs harh.1
    have hB2 := addToBuffers_getD B2 as harh.2
    have ih := reconstruct_foldl hunks (addToBuffers B1 rs) (addToBuffers B2 as)
      (fun rs2 as2 hm => by
        rw [hB1.1, hB2.1]
        exact harity rs2 as2 (by simp [hm]))
    have hstep : (MergeHunk.Conflict rs as :: hunks).foldl apply_hunk (B1, B2)
        = hunks.foldl apply_hunk (addToBuffers B1 rs, addToBuffers B2 as) := rfl
    rw [hstep]
    refine ⟨⟨by rw [ih.1.1, hB1.1], by rw [ih.1.2, hB2.1]⟩, ?_⟩
    intro i
    constructor
    · intro hi
      rw [(ih.2 i).1 (by rw [hB1.1]; exact hi), hB1.2 i hi]
      simp [removeContrib, List.append_assoc]
    · intro hi
      rw [(ih.2 i).2 (by rw [hB2.1]; exact hi), hB2.2 i hi]
      simp [addContrib, List.append_assoc]

theorem reconstruct_contents_spec (nr na : Nat) (hunks : List MergeHunk)
    (harity : ∀ rs as, MergeHunk.Conflict rs as ∈ hunks
      → rs.length = nr ∧ as.length = na) :
    ((reconstruct_contents nr na hunks).1.length = nr
      ∧ (reconstruct_contents nr na hunks).2.length = na)
    ∧ ∀ i : Nat,
        (i < nr → (reconstruct_contents nr na hunks).1.getD i []
          = (hunks.map (removeContrib i)).flatten)
      ∧ (i < na → (reconstruct_contents nr na hunks).2.getD i []
          = (hunks.map (addContrib i)).flatten) := by
  have h := reconstruct_foldl hunks (List.replicate nr []) (List.replicate na [])
    (by simpa using harity)
  unfold reconstruct_contents
  refine ⟨⟨by simpa using h.1.1, by simpa using h.1.2⟩, ?_⟩
  intro i
  constructor
  · intro hi
    have h2 := (h.2 i).1 (by simpa using hi)
    rw [show (List.replicate nr ([] : Bytes)).getD i [] = [] from by
      simp [List.getD_eq_getElem?_getD]] at h2
    simpa using h2
  · intro hi
    have h2 := (h.2 i).2 (by simpa using hi)
    rw [show (List.replicate na ([] : Bytes)).getD i [] = [] from by
      simp [List.getD_eq_getElem?_getD]] at h2
    simpa using h2

/- Invariants of the parse scan. -/

theorem parse_step_hunks_inv (input : Bytes) (nr na : Nat) (st : ParseScanState)
    (line : Bytes) :
    (parse_step input nr na st line).hunks = st.hunks
    ∨ ∃ slice rs as, rs.length = nr ∧ as.length = na
        ∧ (parse_step input nr na st line).hunks
          = (if slice = [] then st.hunks
              else st.hunks ++ [MergeHunk.Resolved slice])
            ++ [MergeHunk.Conflict rs as] := by
  unfold parse_step
  by_cases h1 : line = CONFLICT_START_LINE
  · simp [h1]
  · simp only [h1, if_false]
    cases hcs : st.conflictStart with
    | none => simp
    | some cs =>
      by_cases h2 : line = CONFLICT_END_LINE
      · simp only [h2, if_true]
        cases hph : parse_conflict_hunk
            (sliceBytes input (cs + CONFLICT_START_LINE.length) st.pos) with
        | Resolved s => simp
        | Conflict rs2 as2 =>
          by_cases h3 : rs2.length = nr ∧ as2.length = na
          · right
            exact ⟨sliceBytes input st.resolvedStart cs, rs2, as2, h3.1, h3.2,
              by simp [h3]⟩
          · left
            simp [h3]
      · simp [h2]

theorem parse_scan_inv (input : Bytes) (nr na : Nat) :
    ∀ (lines : List Bytes) (st : ParseScanState),
    (∀ rs as, MergeHunk.Conflict rs as ∈ st.hunks → rs.length = nr ∧ as.length = na) →
    (∀ s, MergeHunk.Resolved s ∈ st.hunks → s ≠ []) →
    (st.hunks ≠ [] → ∃ rs as, MergeHunk.Conflict rs as ∈ st.hunks) →
    (∀ rs as, MergeHunk.Conflict rs as ∈ (lines.foldl (parse_step input nr na) st).hunks
      → rs.length = nr ∧ as.length = na)
    ∧ (∀ s, MergeHunk.Resolved s ∈ (lines.foldl (parse_step input nr na) st).hunks
      → s ≠ [])
    ∧ ((lines.foldl (parse_step input nr na) st).hunks ≠ []
      → ∃ rs as, MergeHunk.Conflict rs as
          ∈ (lines.foldl (parse_step input nr na) st).hunks)
  | [], st, h1, h2, h3 => ⟨h1, h2, h3⟩
  | line :: lines, st, h1, h2, h3 => by
    rw [List.foldl_cons]
    refine parse_scan_inv input nr na lines (parse_step input nr na st line) ?_ ?_ ?_
    all_goals
      rcases parse_step_hunks_inv input nr na st line with heq | ⟨slice, rs, as, hlr, hla, heq⟩
    · rw [heq]; exact h1
    · rw [heq]
      intro rs2 as2 hm
      rcases List.mem_append.mp hm with hm | hm
      · by_cases hsl : slice = []
        · rw [if_pos hsl] at hm
          exact h1 rs2 as2 hm
        · rw [if_neg hsl] at hm
          rcases List.mem_append.mp hm with hm | hm
          · exact h1 rs2 as2 hm
          · simp at hm
      · simp at hm
        exact hm.1 ▸ hm.2 ▸ ⟨hlr, hla⟩
    · rw [heq]; exact h2
    · rw [heq]
      intro s hm
      rcases List.mem_append.mp hm with hm | hm
      · by_cases hsl : slice = []
        · rw [if_pos hsl] at hm
          exact h2 s hm
        · rw [if_neg hsl] at hm
          rcases List.mem_append.mp hm with hm | hm
          · exact h2 s hm
          · simp at hm
            rw [hm]
            exact hsl
      · simp at hm
    · rw [heq]; exact h3
    · rw [heq]
      intro _
      exact ⟨rs, as, by simp⟩

theorem parse_conflict_invariants (input : Bytes) (nr na : Nat) (hs : List MergeHunk)
    (h : parse_conflict input nr na = some hs) :
    hs ≠ [] ∧ (∃ rs as, MergeHunk.Conflict rs as ∈ hs)
    ∧ (∀ rs as, MergeHunk.Conflict rs as ∈ hs → rs.length = nr ∧ as.length = na)
    ∧ (∀ s, MergeHunk.Resolved s ∈ hs → s ≠ []) := by
  unfold parse_conflict at h
  by_cases hne : input = []
  · rw [if_pos hne] at h
    cases h
  rw [if_neg hne] at h
  simp only at h
  have hinv := parse_scan_inv input nr na (splitInclusive input) ⟨[], 0, 0, none⟩
    (by simp) (by simp) (by simp)
  rw [show (splitInclusive input).foldl (parse_step input nr na) ⟨[], 0, 0, none⟩
      = parse_scan input nr na from rfl] at hinv
  by_cases hh : (parse_scan input nr na).hunks = []
  · rw [if_pos hh] at h
    cases h
  rw [if_neg hh] at h
  obtain ⟨rs0, as0, hmem0⟩ := hinv.2.2 hh
  by_cases hlt : (parse_scan input nr na).resolvedStart < input.length
  · rw [if_pos hlt] at h
    obtain rfl := (Option.some.injEq _ _).mp h.symm
    have htail : input.drop (parse_scan input nr na).resolvedStart ≠ [] := by
      rw [Ne, List.drop_eq_nil_iff]
      omega
    refine ⟨by simp, ⟨rs0, as0, by simp [hmem0]⟩, ?_, ?_⟩
    · intro rs as hm
      rcases List.mem_append.mp hm with hm | hm
      · exact hinv.1 rs as hm
      · simp at hm
    · intro s hm
      rcases List.mem_append.mp hm with hm | hm
      · exact hinv.2.1 s hm
      · simp at hm
        rw [hm]
        exact htail
  · rw [if_neg hlt] at h
    obtain rfl := (Option.some.injEq _ _).mp h.symm
    exact ⟨hh, ⟨rs0, as0, hmem0⟩, hinv.1, hinv.2.1⟩

/- Bridging lemma for the decidable arity predicate. -/

theorem arity_of_allOK (nr na : Nat) (hunks : List MergeHunk)
    (h : ∀ x ∈ hunks, hunkArityOK nr na x = true) :
    ∀ rs as, MergeHunk.Conflict rs as ∈ hunks → rs.length = nr ∧ as.length = na := by
  intro rs as hm
  have := h _ hm
  simpa [hunkArityOK] using this

/- Claim theorems. -/

/-- C9: parsing the byte string `"a\n<<<<<<<\n-------\n+++++++\n a\n-b\n+x\n c\n>>>>>>>\n"`
with expected arity (1,1) returns exactly one `Conflict` hunk, whose remove
buffer is `"b\n"` embedded in the matching context (`"a\nb\nc\n"`) and whose
add buffer is `"x\n"` in the same context (`"a\nx\nc\n"`), preceded by the
resolved text `"a\n"` that stood before the start marker — exact bytes. -/
theorem parse_example1 :
    parse_conflict (bytes "a\n<<<<<<<\n-------\n+++++++\n a\n-b\n+x\n c\n>>>>>>>\n") 1 1
      = some [MergeHunk.Resolved (bytes "a\n"),
          MergeHunk.Conflict [bytes "a\nb\nc\n"] [bytes "a\nx\nc\n"]] := by
  decide

/-- C3: a marked block whose parsed body is a `Conflict` hunk with a
remove-group count different from `num_removes` or an add-group count
different from `num_adds` is discarded as ordinary text: the end-marker step
pushes no hunk, leaves the pending resolved-region start unchanged, closes
the open block, and advances the scan position past the end marker. -/
theorem arity_mismatch_rejected (input : Bytes) (nr na : Nat)
    (st : ParseScanState) (cs : Nat) (rs as : List Bytes)
    (hcs : st.conflictStart = some cs)
    (hhunk : parse_conflict_hunk
        (sliceBytes input (cs + CONFLICT_START_LINE.length) st.pos)
      = MergeHunk.Conflict rs as)
    (hmm : rs.length ≠ nr ∨ as.length ≠ na) :
    parse_step input nr na st CONFLICT_END_LINE
      = { st with conflictStart := none, pos := st.pos + CONFLICT_END_LINE.length } := by
  have hnand : ¬(rs.length = nr ∧ as.length = na) := by tauto
  simp [parse_step, end_ne_start, hcs, hhunk, hnand]

theorem arity_mismatch_rejected_witness :
    parse_step (bytes "<<<<<<<\n-------\n+++++++\n>>>>>>>\n") 2 1
        ⟨[], 24, 0, some 0⟩ CONFLICT_END_LINE
      = ⟨[], 32, 0, none⟩ :=
  arity_mismatch_rejected (bytes "<<<<<<<\n-------\n+++++++\n>>>>>>>\n") 2 1
    ⟨[], 24, 0, some 0⟩ 0 [[]] [[]] rfl (by decide) (by decide)

/-- C7: inside a conflict-hunk body, a line that is neither marker line
aborts the body parse with an empty `Resolved` hunk when (a) both sections
are open but the first byte is not `-`, `+` or a space, or (b) neither
section is open; and at the call site a body that parsed to a `Resolved`
hunk never matches the `Conflict` arity check, so the block is rejected as
non-marker text (no hunk pushed, resolved-region start unchanged). -/
theorem malformed_body_aborts :
    (∀ (st : HunkScanState) (line : Bytes) (rest : List Bytes),
      line ≠ CONFLICT_MINUS_LINE → line ≠ CONFLICT_PLUS_LINE →
      ((st.minusSeen = true ∧ st.plusSeen = true
          ∧ line.head? ≠ some 45 ∧ line.head? ≠ some 43 ∧ line.head? ≠ some 32)
        ∨ (st.minusSeen = false ∧ st.plusSeen = false)) →
      parse_hunk_lines st (line :: rest) = MergeHunk.Resolved [])
    ∧ ∀ (input : Bytes) (nr na : Nat) (st : ParseScanState) (cs : Nat),
        st.conflictStart = some cs →
        parse_conflict_hunk
            (sliceBytes input (cs + CONFLICT_START_LINE.length) st.pos)
          = MergeHunk.Resolved [] →
        parse_step input nr na st CONFLICT_END_LINE
          = { st with conflictStart := none, pos := st.pos + CONFLICT_END_LINE.length } := by
  constructor
  · intro st line rest h1 h2 h3
    have hstrip : ∀ p : Nat, line.head? ≠ some p → stripLead p line = none := by
      intro p hp
      cases line with
      | nil => rfl
      | cons b t =>
        simp only [List.head?_cons, Ne] at hp
        have : b ≠ p := fun hb => hp (by rw [hb])
        simp [stripLead, this]
    rcases h3 with ⟨hm, hp, h45, h43, h32⟩ | ⟨hm, hp⟩
    · simp [parse_hunk_lines, h1, h2, hm, hp, hstrip 45 h45, hstrip 43 h43,
        hstrip 32 h32]
    · simp [parse_hunk_lines, h1, h2, hm, hp]
  · intro input nr na st cs hcs hres
    simp [parse_step, end_ne_start, hcs, hres]

theorem malformed_body_aborts_witness :
    parse_hunk_lines ⟨true, true, false, [[]], [[]]⟩ [bytes "z\n"]
        = MergeHunk.Resolved []
    ∧ parse_step (bytes "<<<<<<<\nz\n>>>>>>>\n") 1 1 ⟨[], 10, 0, some 0⟩
        CONFLICT_END_LINE
      = ⟨[], 18, 0, none⟩ :=
  ⟨malformed_body_aborts.1 ⟨true, true, false, [[]], [[]]⟩ (bytes "z\n") []
      (by decide) (by decide)
      (Or.inl ⟨rfl, rfl, by decide, by decide, by decide⟩),
    malformed_body_aborts.2 (bytes "<<<<<<<\nz\n>>>>>>>\n") 1 1
      ⟨[], 10, 0, some 0⟩ 0 rfl (by decide)⟩

/-- C10: whenever `parse_conflict` returns a present hunk sequence, that
sequence is non-empty, contains at least one `Conflict` hunk, every
`Conflict` hunk in it has exactly `num_removes` remove buffers and
`num_adds` add buffers, and every `Resolved` hunk in it is non-empty. -/
theorem parse_some_invariants (input : Bytes) (nr na : Nat)
    (hs : List MergeHunk) (h : parse_conflict input nr na = some hs) :
    hs ≠ [] ∧ (∃ rs as, MergeHunk.Conflict rs as ∈ hs)
    ∧ (∀ rs as, MergeHunk.Conflict rs as ∈ hs → rs.length = nr ∧ as.length = na)
    ∧ (∀ s, MergeHunk.Resolved s ∈ hs → s ≠ []) :=
  parse_conflict_invariants input nr na hs h

theorem parse_some_invariants_witness :
    [MergeHunk.Resolved (bytes "a\n"),
        MergeHunk.Conflict [bytes "a\nb\nc\n"] [bytes "a\nx\nc\n"]] ≠ []
    ∧ (∃ rs as, MergeHunk.Conflict rs as
        ∈ [MergeHunk.Resolved (bytes "a\n"),
            MergeHunk.Conflict [bytes "a\nb\nc\n"] [bytes "a\nx\nc\n"]])
    ∧ (∀ rs as, MergeHunk.Conflict rs as
        ∈ [MergeHunk.Resolved (bytes "a\n"),
            MergeHunk.Conflict [bytes "a\nb\nc\n"] [bytes "a\nx\nc\n"]]
        → rs.length = 1 ∧ as.length = 1)
    ∧ (∀ s, MergeHunk.Resolved s
        ∈ [MergeHunk.Resolved (bytes "a\n"),
            MergeHunk.Conflict [bytes "a\nb\nc\n"] [bytes "a\nx\nc\n"]]
        → s ≠ []) :=
  parse_some_invariants
    (bytes "a\n<<<<<<<\n-------\n+++++++\n a\n-b\n+x\n c\n>>>>>>>\n") 1 1
    [MergeHunk.Resolved (bytes "a\n"),
      MergeHunk.Conflict [bytes "a\nb\nc\n"] [bytes "a\nx\nc\n"]]
    (by decide)

/-- C2: if the new content equals byte-for-byte the materialization of the
stored conflict, the updater returns the same conflict id and performs no
store writes (empty write log: no file blobs, no conflict object); this
holds for any conflict, including non-file conflicts. -/
theorem update_unchanged_noop (merge : List Bytes → List Bytes → MergeResult)
    (diff : Bytes → Bytes → List DiffHunk) (store : Store) (conflict_id : Nat)
    (c : Conflict) (content : Bytes)
    (hread : store.readConflict conflict_id = some c)
    (hc : content = materialize_conflict merge diff store c) :
    update_conflict_from_content merge diff store conflict_id content
      = some (some conflict_id, []) := by
  unfold update_conflict_from_content
  rw [hread]
  simp [hc]

theorem update_unchanged_noop_witness :
    treeStore.readConflict 7 = some treeConflict
    ∧ update_conflict_from_content oneHunkMerge oneHunkDiff treeStore 7
        (materialize_conflict oneHunkMerge oneHunkDiff treeStore treeConflict)
      = some (some 7, []) :=
  ⟨by decide,
    update_unchanged_noop oneHunkMerge oneHunkDiff treeStore 7 treeConflict
      (materialize_conflict oneHunkMerge oneHunkDiff treeStore treeConflict)
      (by decide) rfl⟩

/-- C6: `parse_conflict` returns the absent result exactly when the input is
empty or the line scan accepted no marked block (the final scan state holds
no hunks); on the empty input it returns `none` immediately, and whenever at
least one block was accepted the result is a present hunk sequence. -/
theorem parse_none_characterization :
    (∀ nr na : Nat, parse_conflict [] nr na = none)
    ∧ (∀ (input : Bytes) (nr na : Nat), parse_conflict input nr na = none
        ↔ (input = [] ∨ (parse_scan input nr na).hunks = []))
    ∧ (∀ (input : Bytes) (nr na : Nat), input ≠ []
        → (parse_scan input nr na).hunks ≠ []
        → ∃ hs, parse_conflict input nr na = some hs) := by
  refine ⟨fun nr na => rfl, ?_, ?_⟩
  · intro input nr na
    unfold parse_conflict
    by_cases h : input = []
    · simp [h]
    · simp only [h, if_false, false_or]
      by_cases hh : (parse_scan input nr na).hunks = []
      · simp [hh]
      · by_cases hlt : (parse_scan input nr na).resolvedStart < input.length <;>
          simp [hh, hlt]
  · intro input nr na h hh
    unfold parse_conflict
    by_cases hlt : (parse_scan input nr na).resolvedStart < input.length <;>
      simp [h, hh, hlt]

theorem parse_none_characterization_witness :
    parse_conflict (bytes "x\n") 1 1 = none
    ∧ ∃ hs, parse_conflict
        (bytes "a\n<<<<<<<\n-------\n+++++++\n a\n-b\n+x\n c\n>>>>>>>\n") 1 1
      = some hs :=
  ⟨(parse_none_characterization.2.1 (bytes "x\n") 1 1).mpr (Or.inr (by decide)),
    parse_none_characterization.2.2
      (bytes "a\n<<<<<<<\n-------\n+++++++\n a\n-b\n+x\n c\n>>>>>>>\n") 1 1
      (by decide) (by decide)⟩

/-- C5: in the updater's reconstruction, each `Resolved` hunk's bytes are
appended identically to every remove and every add buffer, and each
`Conflict` hunk's `i`-th slices go only to the `i`-th buffers, in hunk
order: remove buffer `i` equals the in-order concatenation of
`removeContrib i` over the hunks (`removeContrib i` is the whole content
for `Resolved` and slice `i` for `Conflict`), and symmetrically for adds;
buffer counts are the original arities. -/
theorem reconstruction_characterization (nr na : Nat) (hunks : List MergeHunk)
    (harity : ∀ x ∈ hunks, hunkArityOK nr na x = true) :
    ((reconstruct_contents nr na hunks).1.length = nr
      ∧ (reconstruct_contents nr na hunks).2.length = na)
    ∧ ∀ i : Nat,
        (i < nr → (reconstruct_contents nr na hunks).1.getD i []
          = (hunks.map (removeContrib i)).flatten)
      ∧ (i < na → (reconstruct_contents nr na hunks).2.getD i []
          = (hunks.map (addContrib i)).flatten) :=
  reconstruct_contents_spec nr na hunks (arity_of_allOK nr na hunks harity)

theorem reconstruction_characterization_witness :
    (reconstruct_contents 1 1 [MergeHunk.Resolved (bytes "s\n"),
        MergeHunk.Conflict [bytes "b\n"] [bytes "x\n"]]).1.getD 0 []
      = bytes "s\nb\n"
    ∧ (reconstruct_contents 1 1 [MergeHunk.Resolved (bytes "s\n"),
        MergeHunk.Conflict [bytes "b\n"] [bytes "x\n"]]).2.getD 0 []
      = bytes "s\nx\n" :=
  ⟨((reconstruction_characterization 1 1 [MergeHunk.Resolved (bytes "s\n"),
      MergeHunk.Conflict [bytes "b\n"] [bytes "x\n"]] (by decide)).2 0).1 (by decide),
    ((reconstruction_characterization 1 1 [MergeHunk.Resolved (bytes "s\n"),
      MergeHunk.Conflict [bytes "b\n"] [bytes "x\n"]] (by decide)).2 0).2 (by decide)⟩

/-- C8: a `Conflict` merge hunk with remove-slices `rs` and add-slices `as`
materializes as: the start-marker line; for each of the first
`min rs.length as.length` indices a minus-marker line, a plus-marker line
and the embedded line diff of the paired slices (`diffRender`: matching
lines space-prefixed, a differing region's left lines `-`-prefixed followed
by its right lines `+`-prefixed, empty regions emitting nothing); then each
remaining remove-slice after a minus-marker line, then each remaining
add-slice after a plus-marker line; then the end-marker line. -/
theorem materialize_conflict_hunk_layout (diff : Bytes → Bytes → List DiffHunk)
    (out : Bytes) (rs as : List Bytes) :
    materialize_hunk diff out (MergeHunk.Conflict rs as)
      = out ++ CONFLICT_START_LINE
        ++ ((rs.zip as).map
            (fun p => CONFLICT_MINUS_LINE ++ CONFLICT_PLUS_LINE
              ++ diffRender (diff p.1 p.2))).flatten
        ++ ((rs.drop (min rs.length as.length)).map
            (fun s => CONFLICT_MINUS_LINE ++ s)).flatten
        ++ ((as.drop (min rs.length as.length)).map
            (fun s => CONFLICT_PLUS_LINE ++ s)).flatten
        ++ CONFLICT_END_LINE :=
  materialize_hunk_conflict diff out rs as

/- Facts about the textual description (for C4). -/

theorem hexDigitByte_ne10 (m : Nat) : hexDigitByte m ≠ 10 := by
  unfold hexDigitByte
  split <;> omega

theorem hexBytesAux_ne10 : ∀ (fuel n : Nat), ∀ b ∈ hexBytesAux fuel n, b ≠ 10
  | 0, n => by simp [hexBytesAux]
  | fuel + 1, n => by
    intro b hb
    by_cases h : n = 0
    · simp [hexBytesAux, h] at hb
    · simp only [hexBytesAux, h, if_false, List.mem_append, List.mem_singleton] at hb
      rcases hb with hb | hb
      · exact hexBytesAux_ne10 fuel (n / 16) b hb
      · rw [hb]
        exact hexDigitByte_ne10 _

theorem hexBytes_ne10 (n : Nat) : ∀ b ∈ hexBytes n, b ≠ 10 := by
  unfold hexBytes
  split
  · intro b hb
    simp [bytes] at hb
    omega
  · exact hexBytesAux_ne10 n n

theorem describe_part_ne10 (p : ConflictPart) :
    ∀ b ∈ describe_conflict_part p, b ≠ 10 := by
  obtain ⟨v⟩ := p
  have hsplit : ∀ (s : Bytes) (n : Nat), (∀ x ∈ s, x ≠ 10)
      → ∀ b ∈ s ++ hexBytes n, b ≠ 10 := by
    intro s n hs b hb
    rcases List.mem_append.mp hb with h | h
    · exact hs b h
    · exact hexBytes_ne10 n b h
  cases v with
  | Normal id exec =>
    cases exec
    · exact hsplit (bytes "file with id ") id (by decide)
    · exact hsplit (bytes "executable file with id ") id (by decide)
  | Symlink id => exact hsplit (bytes "symlink with id ") id (by decide)
  | Tree id => exact hsplit (bytes "tree with id ") id (by decide)
  | GitSubmodule id => exact hsplit (bytes "Git submodule with id ") id (by decide)
  | Conflict id => exact hsplit (bytes "Conflict with id ") id (by decide)

theorem describe_lines_eq (c : Conflict) :
    describe_conflict c
      = (bytes "Conflict:\n"
          :: (c.removes.map
              (fun p => bytes "  Removing " ++ describe_conflict_part p ++ bytes "\n")
            ++ c.adds.map
              (fun p => bytes "  Adding " ++ describe_conflict_part p ++ bytes "\n"))).flatten := by
  simp [describe_conflict, List.flatten_append, List.append_assoc]

theorem describe_line_props (c : Conflict) :
    ∀ t ∈ (bytes "Conflict:\n"
        :: (c.removes.map
            (fun p => bytes "  Removing " ++ describe_conflict_part p ++ bytes "\n")
          ++ c.adds.map
            (fun p => bytes "  Adding " ++ describe_conflict_part p ++ bytes "\n"))),
      ProperLine t ∧ (t.head? = some 67 ∨ t.head? = some 32) := by
  have hpart : ∀ (s : Bytes) (p : ConflictPart), (∀ x ∈ s, x ≠ 10) → s.head? = some 32 →
      ProperLine (s ++ describe_conflict_part p ++ bytes "\n")
        ∧ ((s ++ describe_conflict_part p ++ bytes "\n").head? = some 67
          ∨ (s ++ describe_conflict_part p ++ bytes "\n").head? = some 32) := by
    intro s p hs hhd
    constructor
    · refine (properLine_iff _).mpr ⟨s ++ describe_conflict_part p, ?_, ?_⟩
      · rw [show bytes "\n" = [10] from rfl]
      · intro hmem
        rcases List.mem_append.mp hmem with h | h
        · exact hs 10 h rfl
        · exact describe_part_ne10 p 10 h rfl
    · right
      cases s with
      | nil => simp at hhd
      | cons b s2 =>
        simp only [List.head?_cons, Option.some.injEq] at hhd
        rw [List.append_assoc, List.cons_append]
        simp [hhd]
  intro t ht
  rcases List.mem_cons.mp ht with rfl | ht
  · exact ⟨by decide, Or.inl (by decide)⟩
  rcases List.mem_append.mp ht with ht | ht
  · obtain ⟨p, _, rfl⟩ := List.mem_map.mp ht
    exact hpart (bytes "  Removing ") p (by decide) (by decide)
  · obtain ⟨p, _, rfl⟩ := List.mem_map.mp ht
    exact hpart (bytes "  Adding ") p (by decide) (by decide)

/-- C4: for a Conflict with at least one part that is not a plain
non-executable regular file, `materialize_conflict` emits only the textual
description (header line, then one line per removed part and one per added
part, in order — the shape of `describe_conflict`); the description contains
no conflict-marker line, and parsing it with any expected arity returns
`none` ("no markers found"). -/
theorem nonfile_conflicts_describe_only
    (merge : List Bytes → List Bytes → MergeResult)
    (diff : Bytes → Bytes → List DiffHunk) (store : Store) (c : Conflict)
    (hnf : ¬ ∀ p ∈ c.removes ++ c.adds, isFilePart p = true) :
    materialize_conflict merge diff store c = describe_conflict c
    ∧ (∀ t ∈ splitInclusive (describe_conflict c), t ∉ markerLines)
    ∧ ∀ nr na : Nat, parse_conflict (describe_conflict c) nr na = none := by
  have hcond : (file_parts c.adds).length ≠ c.adds.length
      ∨ (file_parts c.removes).length ≠ c.removes.length := by
    by_contra hcon
    push_neg at hcon
    apply hnf
    intro p hp
    rcases List.mem_append.mp hp with h | h
    · exact List.filter_eq_self.mp ((List.filter_sublist _).eq_of_length hcon.2) p h
    · exact List.filter_eq_self.mp ((List.filter_sublist _).eq_of_length hcon.1) p h
  have hdesc := describe_lines_eq c
  have hprops := describe_line_props c
  have hlines : splitInclusive (describe_conflict c)
      = bytes "Conflict:\n"
        :: (c.removes.map
            (fun p => bytes "  Removing " ++ describe_conflict_part p ++ bytes "\n")
          ++ c.adds.map
            (fun p => bytes "  Adding " ++ describe_conflict_part p ++ bytes "\n")) := by
    rw [hdesc]
    exact splitInclusive_of_proper _ (fun t ht => (hprops t ht).1)
  have hmark : ∀ t ∈ splitInclusive (describe_conflict c), t ∉ markerLines := by
    rw [hlines]
    intro t ht hmem
    have hh := (hprops t ht).2
    simp only [markerLines, List.mem_cons, List.mem_singleton] at hmem
    rcases hmem with rfl | rfl | rfl | hmem
    · rcases hh with hh | hh <;> exact absurd hh (by decide)
    · rcases hh with hh | hh <;> exact absurd hh (by decide)
    · rcases hh with hh | hh <;> exact absurd hh (by decide)
    · rcases hmem with rfl | hmem
      · rcases hh with hh | hh <;> exact absurd hh (by decide)
      · simp at hmem
  refine ⟨by unfold materialize_conflict; rw [if_pos hcond], hmark, ?_⟩
  intro nr na
  have hne : describe_conflict c ≠ [] := by
    intro he
    rw [hdesc, List.flatten_cons] at he
    have := List.append_eq_nil.mp he
    exact (by decide : bytes "Conflict:\n" ≠ []) this.1
  have hnostart : ∀ t ∈ splitInclusive (describe_conflict c),
      t ≠ CONFLICT_START_LINE := by
    intro t ht he
    exact hmark t ht (by rw [he]; simp [markerLines])
  unfold parse_conflict
  rw [if_neg hne]
  have hscan : parse_scan (describe_conflict c) nr na
      = ⟨[], 0 + (splitInclusive (describe_conflict c)).flatten.length, 0, none⟩ := by
    rw [parse_scan]
    exact scan_outside _ nr na _ [] 0 0 hnostart
  rw [hscan]
  simp

theorem nonfile_conflicts_describe_only_witness :
    materialize_conflict oneHunkMerge oneHunkDiff treeStore treeConflict
      = describe_conflict treeConflict
    ∧ parse_conflict (describe_conflict treeConflict) 5 2 = none :=
  ⟨(nonfile_conflicts_describe_only oneHunkMerge oneHunkDiff treeStore treeConflict
      (by decide)).1,
    (nonfile_conflicts_describe_only oneHunkMerge oneHunkDiff treeStore treeConflict
      (by decide)).2.2 5 2⟩

/-- C1 (amended): for a Conflict whose parts are all plain non-executable
regular files, whose merge result is a conflicted hunk sequence satisfying
the merger contract (arity preserved; per-index contributions concatenate
back to the original contents) and whose rendered text is marker-safe
(resolved hunks and diff regions newline-terminated, no resolved line equal
to the start marker, no diff line colliding with a marker line once
prefixed, unpaired slices free of marker lines, and a non-empty last paired
diff when unpaired slices follow), parsing the materialized text with the
original arities succeeds and reconstructing the per-index buffers yields
byte-for-byte the original remove and add file contents. -/
theorem materialize_parse_roundtrip
    (merge : List Bytes → List Bytes → MergeResult)
    (diff : Bytes → Bytes → List DiffHunk) (store : Store) (c : Conflict)
    (hunks : List MergeHunk)
    (hfiles : ∀ p ∈ c.removes ++ c.adds, isFilePart p = true)
    (hmerge : merge (c.removes.map (get_file_contents store))
        (c.adds.map (get_file_contents store)) = MergeResult.Conflict hunks)
    (hsafe : ∀ h ∈ hunks, SafeHunk diff h)
    (harity : ∀ x ∈ hunks, hunkArityOK c.removes.length c.adds.length x = true)
    (hex : ∃ rs as, MergeHunk.Conflict rs as ∈ hunks)
    (hcontribR : ∀ i, i < c.removes.length →
      (hunks.map (removeContrib i)).flatten
        = (c.removes.map (get_file_contents store)).getD i [])
    (hcontribA : ∀ i, i < c.adds.length →
      (hunks.map (addContrib i)).flatten
        = (c.adds.map (get_file_contents store)).getD i []) :
    ∃ hs, parse_conflict (materialize_conflict merge diff store c)
        c.removes.length c.adds.length = some hs
      ∧ reconstruct_contents c.removes.length c.adds.length hs
        = (c.removes.map (get_file_contents store),
          c.adds.map (get_file_contents store)) := by
  have hfr : file_parts c.removes = c.removes :=
    List.filter_eq_self.mpr (fun p hp => hfiles p (List.mem_append.mpr (Or.inl hp)))
  have hfa : file_parts c.adds = c.adds :=
    List.filter_eq_self.mpr (fun p hp => hfiles p (List.mem_append.mpr (Or.inr hp)))
  have hcond : ¬((file_parts c.adds).length ≠ c.adds.length
      ∨ (file_parts c.removes).length ≠ c.removes.length) := by
    rw [hfa, hfr]
    simp
  have hmat : materialize_conflict merge diff store c
      = hunks.foldl (materialize_hunk diff) [] := by
    unfold materialize_conflict
    rw [if_neg hcond, hfa, hfr]
    dsimp only
    rw [hmerge]
  obtain ⟨hs, hparse, hcontrib⟩ := parse_materialized_hunks diff
    c.removes.length c.adds.length hunks hsafe
    (arity_of_allOK _ _ _ harity) hex
  rw [hmat]
  refine ⟨hs, hparse, ?_⟩
  have hinv := parse_conflict_invariants _ _ _ hs hparse
  have hspec := reconstruct_contents_spec c.removes.length c.adds.length hs
    hinv.2.2.1
  rw [Prod.ext_iff]
  constructor
  · apply List.ext_getElem
    · rw [hspec.1.1, List.length_map]
    · intro n h1 h2
      have hn : n < c.removes.length := by
        rw [hspec.1.1] at h1
        exact h1
      have e1 := (hspec.2 n).1 hn
      rw [List.getD_eq_getElem _ _ h1] at e1
      rw [e1, hcontrib (removeContrib n) (fun s => rfl), hcontribR n hn,
        List.getD_eq_getElem _ _ h2]
  · apply List.ext_getElem
    · rw [hspec.1.2, List.length_map]
    · intro n h1 h2
      have hn : n < c.adds.length := by
        rw [hspec.1.2] at h1
        exact h1
      have e1 := (hspec.2 n).2 hn
      rw [List.getD_eq_getElem _ _ h1] at e1
      rw [e1, hcontrib (addContrib n) (fun s => rfl), hcontribA n hn,
        List.getD_eq_getElem _ _ h2]

theorem materialize_parse_roundtrip_witness :
    ∃ hs, parse_conflict
        (materialize_conflict oneHunkMerge oneHunkDiff plainStore twoFileConflict) 1 1
      = some hs
      ∧ reconstruct_contents 1 1 hs
        = (twoFileConflict.removes.map (get_file_contents plainStore),
          twoFileConflict.adds.map (get_file_contents plainStore)) :=
  materialize_parse_roundtrip oneHunkMerge oneHunkDiff plainStore twoFileConflict
    [MergeHunk.Conflict [bytes "b\n"] [bytes "x\n"]]
    (by decide) (by decide) (by decide) (by decide)
    ⟨[bytes "b\n"], [bytes "x\n"], by decide⟩ (by decide) (by decide)

/-- C1 counterexample: the round-trip fails as stated when a file's content
collides with a marker line once prefixed.  Both parts of the conflict are
plain non-executable files, the merger output satisfies the arity and
contribution contract and the differ covers its input, yet parsing the
materialized text with the original arities returns `none` (the `-`-prefixed
content line `"------\n"` renders as the minus-marker line `"-------\n"`,
changing the block's apparent arity), so no reconstruction is possible. -/
theorem materialize_parse_roundtrip_counterexample :
    (∀ p ∈ twoFileConflict.removes ++ twoFileConflict.adds, isFilePart p = true)
    ∧ oneHunkMerge
        (twoFileConflict.removes.map (get_file_contents markerCollisionStore))
        (twoFileConflict.adds.map (get_file_contents markerCollisionStore))
      = MergeResult.Conflict
          [MergeHunk.Conflict [bytes "------\n"] [bytes "x\n"]]
    ∧ (∀ x ∈ [MergeHunk.Conflict [bytes "------\n"] [bytes "x\n"]],
        hunkArityOK 1 1 x = true)
    ∧ (∀ i, i < 1 →
        ([MergeHunk.Conflict [bytes "------\n"] [bytes "x\n"]].map
            (removeContrib i)).flatten
        = (twoFileConflict.removes.map
            (get_file_contents markerCollisionStore)).getD i [])
    ∧ (∀ i, i < 1 →
        ([MergeHunk.Conflict [bytes "------\n"] [bytes "x\n"]].map
            (addContrib i)).flatten
        = (twoFileConflict.adds.map
            (get_file_contents markerCollisionStore)).getD i [])
    ∧ leftJoin (oneHunkDiff (bytes "------\n") (bytes "x\n")) = bytes "------\n"
    ∧ rightJoin (oneHunkDiff (bytes "------\n") (bytes "x\n")) = bytes "x\n"
    ∧ parse_conflict
        (materialize_conflict oneHunkMerge oneHunkDiff markerCollisionStore
          twoFileConflict) 1 1
      = none := by
  decide
